import Mathlib

set_option maxRecDepth 4000

/-!
Shallow embedding of the mgpu repository's radix-sort histogram/scan stage
(`src/sort/src/kernels/sorthist.cu`) and of the b40c reduction policy
composition (`src/sort/src/b40c/b40c/reduction/.../policy.cuh`), together
with proofs about them.

Conventions of the embedding:
* `uint` values are naturals; every `uint` addition, subtraction and
  multiplication is taken modulo `2^32` (`uMod`), as on the device.
* Device shared memory is a function `Nat → Nat`.  A parallel phase that
  ends at a barrier is embedded as a function from the old contents to the
  new contents.  A parallel write to a set of pairwise distinct addresses
  (`shared[f tid] = v tid`) is embedded by inverting the address map: the
  new contents at address `j` are `v tid` when `j = f tid` for the (unique)
  writing thread, and the old contents otherwise.
* The kernels are instantiated with `NumThreads = 1024` only
  (`GEN_SORTHIST_FUNC(SortHist_k, 1024, k, 1)` for `k = 1..7`), so the
  embedding fixes `NumThreads = 1024` and `WARP_SIZE = 32`,
  `LOG_WARP_SIZE = 5` (from the spec's glossary; `common.cu` is not part
  of the excerpt).
-/

/-- The modulus of 32-bit unsigned (`uint`) arithmetic. -/
def uMod : Nat := 4294967296

/-- `uint` addition: wraps modulo `2^32`. -/
def uadd (a b : Nat) : Nat := (a + b) % uMod

/-- `uint` subtraction (two's complement wrap-around), for `b ≤ 2^32`. -/
def usub (a b : Nat) : Nat := (a + (uMod - b)) % uMod

/-- Sum of `f 0 + f 1 + ... + f (n-1)`, by structural recursion so that it
evaluates by kernel reduction.  Used for all reference (ideal) sums. -/
def sumRange (f : Nat → Nat) : Nat → Nat
  | 0 => 0
  | n + 1 => sumRange f n + f n

/-- Exclusive-scan fold in `uint` arithmetic: `u 0 = 0`,
`u (n+1) = (u n + f n) mod 2^32`. -/
def uSumRange (f : Nat → Nat) : Nat → Nat
  | 0 => 0
  | n + 1 => (uSumRange f n + f n) % uMod

/-! ## `StridedMultiScan` (sorthist.cu lines 10-149)

Regime A (`NumDigits < WARP_SIZE`, i.e. `NumBits ≤ 4`).  The digit count is
`NumDigits = 2^nb`; `lane = tid % 32`, `lane2 = tid % 2^nb` (the source
writes `(WARP_SIZE - 1) & tid` and `(NumDigits - 1) & tid`, equal to the
remainders because both are powers of two), `warp = tid / 32`. -/

/-- One step of the phase-0 doubling loop of regime A:
`offset = NumDigits << i; if (lane >= offset) x += shared[tid - offset];
shared[tid] = x;` — the register `x` and `shared[tid]` are kept equal, so
only the shared array is tracked. -/
def scanStepA (off : Nat) (s : Nat → Nat) : Nat → Nat :=
  fun t => if off ≤ t % 32 then (s t + s (t - off)) % uMod else s t

/-- Shared memory after `k` iterations of the phase-0 loop of regime A
(`for (i = 0; i < 5 - NumBits; ++i)` with `offset = NumDigits << i`),
starting from `shared[tid] = x`. -/
def phase0 (nb : Nat) (x : Nat → Nat) : Nat → (Nat → Nat)
  | 0 => x
  | k + 1 => scanStepA (2 ^ nb * 2 ^ k) (phase0 nb x k)

/-- `laneExc = x - count` after the phase-0 loop (regime A): the final
register value minus this lane's own input. -/
def laneExcA (nb : Nat) (x : Nat → Nat) (t : Nat) : Nat :=
  usub (phase0 nb x (5 - nb) t) (x t)

/-- Shared memory after the warp-total deposit of regime A:
`if ((int)lane >= WARP_SIZE - NumDigits)
  shared[(WARP_SIZE + 1) * lane2 + warp] = x;`.
The writing thread of address `j = 33 * lane2 + warp` is
`t = 32 * warp + (32 - NumDigits) + lane2` (its last duplicate lane of the
digit has `lane2 = lane - (32 - NumDigits)` because `NumDigits ∣ 32`);
the address map is injective, unwritten slots keep their phase-0 value. -/
def sharedDeposit (nb : Nat) (x : Nat → Nat) : Nat → Nat :=
  fun j =>
    if j % 33 < 32 ∧ j / 33 < 2 ^ nb then
      phase0 nb x (5 - nb) (32 * (j % 33) + (32 - 2 ^ nb) + j / 33)
    else
      phase0 nb x (5 - nb) j

/-- One step of the phase-2 warp scans of regime A (warp `w < NumDigits`
scans digit `w`'s per-warp totals over the 33-padded row starting at
`33 * w`): `if (lane >= offset) x += warpShared[lane - offset];
warpShared[lane] = x;`. -/
def scanStepW (nb off : Nat) (s : Nat → Nat) : Nat → Nat :=
  fun j =>
    if j / 33 < 2 ^ nb ∧ j % 33 < 32 ∧ off ≤ j % 33 then
      (s j + s (j - off)) % uMod
    else s j

/-- Shared memory after `k` iterations of the phase-2 loop of regime A
(`for (i = 0; i < LOG_WARP_SIZE; ++i)` with `offset = 1 << i`). -/
def phase2 (nb : Nat) (x : Nat → Nat) : Nat → (Nat → Nat)
  | 0 => sharedDeposit nb x
  | k + 1 => scanStepW nb (2 ^ k) (phase2 nb x k)

/-- `totals_shared` after the phase-2 digit-total deposit of regime A:
`if (WARP_SIZE - 1 == lane) totals_shared[warp] = x;` executed by the warp
that scanned digit `warp`; unwritten slots keep the initial contents
`t0` of the (uninitialized) `totals_shared` buffer. -/
def totalsDeposit (nb : Nat) (x t0 : Nat → Nat) : Nat → Nat :=
  fun d => if d < 2 ^ nb then phase2 nb x 5 (33 * d + 31) else t0 d

/-- Shared memory after the phase-2 write-back of regime A:
`warpShared[lane] = x - count;` (the scanned value minus the value loaded
at the start of phase 2, making the per-warp offsets exclusive). -/
def sharedWarpExc (nb : Nat) (x : Nat → Nat) : Nat → Nat :=
  fun j =>
    if j / 33 < 2 ^ nb ∧ j % 33 < 32 then
      usub (phase2 nb x 5 j) (sharedDeposit nb x j)
    else phase2 nb x 5 j

/-- One step of the phase-3 exclusive scan of digit totals of regime A
(`if (tid < NumDigits)`, loop `i`): `if (tid >= offset)
x += totals_shared[tid - offset]; if (i == NumBits - 1) x -= count;
totals_shared[tid] = x;` where `count` is the value loaded before the
loop (`orig`). -/
def totalsStep (nb i : Nat) (orig s : Nat → Nat) : Nat → Nat :=
  fun d =>
    if d < 2 ^ nb then
      let y := if 2 ^ i ≤ d then (s d + s (d - 2 ^ i)) % uMod else s d
      if i = nb - 1 then usub y (orig d) else y
    else s d

/-- `totals_shared` after `k` iterations of the phase-3 loop of regime A. -/
def phase3 (nb : Nat) (x t0 : Nat → Nat) : Nat → (Nat → Nat)
  | 0 => totalsDeposit nb x t0
  | k + 1 => totalsStep nb k (totalsDeposit nb x t0) (phase3 nb x t0 k)

/-- The value returned by regime A of `StridedMultiScan`:
`totalExc + warpExc + laneExc` with `totalExc = totals_shared[lane2]` and
`warpExc = shared[lane2 * (WARP_SIZE + 1) + warp]`. -/
def multiScanA (nb : Nat) (x t0 : Nat → Nat) (t : Nat) : Nat :=
  uadd (uadd (phase3 nb x t0 nb (t % 2 ^ nb))
             (sharedWarpExc nb x (33 * (t % 2 ^ nb) + t / 32)))
       (laneExcA nb x t)

/-! Regime B (`NumDigits ≥ WARP_SIZE`, i.e. `NumBits ≥ 5`). -/

/-- Accumulator of the sequential per-digit fold of regime B after `i` of
the `NumDuplicates = NumThreads / NumDigits` iterations run by thread
`d < NumDigits`: `x = 0; for (i ...) { y = shared[i * NumDigits + tid];
shared[...] = x; x += y; }`.  Each slot is read before it is written, so
the reads see the original input `x`. -/
def digitFold (nb : Nat) (x : Nat → Nat) (d : Nat) : Nat → Nat
  | 0 => 0
  | i + 1 => (digitFold nb x d i + x (i * 2 ^ nb + d)) % uMod

/-- Shared memory after the sequential phase of regime B: slot
`i * NumDigits + d` holds the running exclusive value `digitFold d i`
(every slot below 1024 is rewritten since `NumDigits ∣ 1024`). -/
def sharedSeq (nb : Nat) (x : Nat → Nat) : Nat → Nat :=
  fun t => if t < 1024 then digitFold nb x (t % 2 ^ nb) (t / 2 ^ nb) else x t

/-- `totals_shared` after the regime-B deposit
`totals_shared[tid + tid / WARP_SIZE] = x;`: the padded address
`p = d + d / 32` decomposes as `p = 33 * (d / 32) + d % 32`, so the
writing digit is `d = 32 * (p / 33) + p % 33`. -/
def totalsSeq (nb : Nat) (x t0 : Nat → Nat) : Nat → Nat :=
  fun p =>
    if p % 33 < 32 ∧ 32 * (p / 33) + p % 33 < 2 ^ nb then
      digitFold nb x (32 * (p / 33) + p % 33) (1024 / 2 ^ nb)
    else t0 p

/-- Modelled from the spec: the bodies of `IntraWarpParallelScan`
(`NumBits = 5`), `IntraWarpScan64` (`NumBits = 6`) and `IntraWarpScan128`
(`NumBits = 7`) live in the excluded `common.cu`.  Per the spec (§4.1,
§4.2 regime B step 2) each exclusive-scans the `NumDigits` per-digit
totals, stored one per logical lane at the padded address `d + d / 32`
("padded by one extra slot per 32-lane group"), and stores the exclusive
prefix back at the same padded address.  The scan accumulates in `uint`
arithmetic. -/
def totalsWarpScanned (nb : Nat) (x t0 : Nat → Nat) : Nat → Nat :=
  fun p =>
    if p % 33 < 32 ∧ 32 * (p / 33) + p % 33 < 2 ^ nb then
      uSumRange (fun d => totalsSeq nb x t0 (d + d / 32))
        (32 * (p / 33) + p % 33)
    else totalsSeq nb x t0 p

/-- `totals_shared` after the regime-B scan-of-totals phase: the source
dispatches on `NumBits` (`if (5 == NumBits) ... else if (6 == NumBits) ...
else if (7 == NumBits) ...`); for any other value no branch runs and the
totals are left unscanned. -/
def totalsB (nb : Nat) (x t0 : Nat → Nat) : Nat → Nat :=
  if nb = 5 ∨ nb = 6 ∨ nb = 7 then totalsWarpScanned nb x t0
  else totalsSeq nb x t0

/-- The value returned by regime B of `StridedMultiScan`:
`exc = totals_shared[lane2 + lane2 / WARP_SIZE] + shared[tid]`. -/
def multiScanB (nb : Nat) (x t0 : Nat → Nat) (t : Nat) : Nat :=
  uadd (totalsB nb x t0 (t % 2 ^ nb + t % 2 ^ nb / 32)) (sharedSeq nb x t)

/-- `StridedMultiScan<1024, nb>`: the per-thread return value, for thread
`t` with per-thread input `x` and initial `totals_shared` contents `t0`
(sorthist.cu lines 10-149; the regime is selected by
`NumDigits < WARP_SIZE`). -/
def StridedMultiScan (nb : Nat) (x t0 : Nat → Nat) (t : Nat) : Nat :=
  if 2 ^ nb < 32 then multiScanA nb x t0 t else multiScanB nb x t0 t

/-- The contents of `totals_shared` when `StridedMultiScan` returns (read
afterwards by `SortHist` at line 193). -/
def StridedMultiScanTotals (nb : Nat) (x t0 : Nat → Nat) : Nat → Nat :=
  if 2 ^ nb < 32 then phase3 nb x t0 nb else totalsB nb x t0

/-! ## `SortHist` (sorthist.cu lines 155-201) -/

/-- Modelled from the spec: `ComputeTaskRange` is defined in the excluded
`common.cu`.  Per the spec (§4.3) it is "a balanced range split
(`quot = numTasks / columns`, remainder distributed one extra unit to the
first `remainder` columns — a standard load-balanced task-range split)";
column `col` receives the half-open interval `[fst, snd)` of task
indices. -/
def computeTaskRange (col quot rem : Nat) : Nat × Nat :=
  let b := quot * col + min col rem
  (b, b + quot + if col < rem then 1 else 0)

/-- `NumColumns = NumThreads / NumDigits` with `NumThreads = 1024`. -/
def numColumns (nb : Nat) : Nat := 1024 / 2 ^ nb

/-- `quot = numTasks / NumColumns`. -/
def taskQuot (nb numTasks : Nat) : Nat := numTasks / numColumns nb

/-- `rem = (NumColumns - 1) & numTasks`, i.e. `numTasks % NumColumns`
(`NumColumns` is a power of two). -/
def taskRem (nb numTasks : Nat) : Nat := numTasks % numColumns nb

/-- The upsweep accumulation loop of `SortHist`:
`uint laneCount = 0; for (i = start; i < end; i += stride)
laneCount += blockTotals_global[i];` embedded as a fold over the `n`
iterations, reading `mem (start + j * stride)` at iteration `j`. -/
def upsweepCount (mem : Nat → Nat) (start stride : Nat) : Nat → Nat
  | 0 => 0
  | n + 1 => (upsweepCount mem start stride n + mem (start + n * stride)) % uMod

/-- The per-thread `laneCount` of `SortHist`: thread `tid` is column
`col = tid / NumDigits`, digit `lane2 = tid % NumDigits`, and sums the
block counts `blockTotals_global[NumDigits * b + lane2]` over the blocks
`b` of its task range. -/
def SortHistLaneCount (nb numTasks : Nat) (counts : Nat → Nat) : Nat → Nat :=
  fun tid =>
    let r := computeTaskRange (tid / 2 ^ nb) (taskQuot nb numTasks)
      (taskRem nb numTasks)
    upsweepCount counts (2 ^ nb * r.1 + tid % 2 ^ nb) (2 ^ nb) (r.2 - r.1)

/-- The value of `laneExc` held by a thread of `SortHist` just before the
`j`-th write of its downsweep loop: `msVal` from `StridedMultiScan`, then
`laneExc += blockCount` (unscaled) once per earlier iteration.  The loop
reads each slot before overwriting it and the threads' slot sets are
disjoint, so every read sees the original `counts`. -/
def downsweepExc (mem : Nat → Nat) (msVal start stride : Nat) : Nat → Nat
  | 0 => msVal
  | j + 1 => (downsweepExc mem msVal start stride j + mem (start + j * stride)) % uMod

/-- The column whose task range contains block `b` (the ranges of
`computeTaskRange` tile `[0, numTasks)` in column order). -/
def colOf (quot rem b : Nat) : Nat :=
  if b < rem * (quot + 1) then b / (quot + 1)
  else rem + (b - rem * (quot + 1)) / quot

/-- The `StridedMultiScan` return value inside `SortHist` for thread
`tid`, on per-block digit counts `counts` and initial `totals_shared`
contents `t0`. -/
def SortHistScan (nb numTasks : Nat) (counts t0 : Nat → Nat) (tid : Nat) : Nat :=
  StridedMultiScan nb (SortHistLaneCount nb numTasks counts) t0 tid

/-- The unscaled exclusive offset `SortHist` computes for the block-count
slot `i = NumDigits * b + lane2` (the running `laneExc` of the owning
thread just before it writes slot `i`).  Slot `i` belongs to block
`b = i / NumDigits` and digit `i % NumDigits`, and is processed by the
thread of column `colOf ... b` at downsweep iteration `b - range.fst`. -/
def SortHistUnscaled (nb numTasks : Nat) (counts t0 : Nat → Nat) (i : Nat) : Nat :=
  let quot := taskQuot nb numTasks
  let rem := taskRem nb numTasks
  let d := i % 2 ^ nb
  let col := colOf quot rem (i / 2 ^ nb)
  let start := (computeTaskRange col quot rem).1
  downsweepExc counts (SortHistScan nb numTasks counts t0 (col * 2 ^ nb + d))
    (2 ^ nb * start + d) (2 ^ nb) (i / 2 ^ nb - start)

/-- The contents of `blockTotals_global` after `SortHist` runs: each slot
in range is overwritten with `4 * laneExc` (`uint` multiplication), the
rest of memory is untouched. -/
def SortHistMem (nb numTasks : Nat) (counts t0 : Nat → Nat) : Nat → Nat :=
  fun i =>
    if i < 2 ^ nb * numTasks then
      4 * SortHistUnscaled nb numTasks counts t0 i % uMod
    else counts i

/-- The contents of `totalsScan_global` after `SortHist` runs:
`if (totalsScan_global && (tid < NumDigits))
totalsScan_global[tid] = totals_shared[tid + tid / WARP_SIZE];`.
`nonNull` models whether the pointer was supplied; `prev` is the prior
contents of the output buffer. -/
def SortHistTotalsOut (nb numTasks : Nat) (counts t0 prev : Nat → Nat)
    (nonNull : Bool) : Nat → Nat :=
  fun d =>
    if nonNull ∧ d < 2 ^ nb then
      StridedMultiScanTotals nb (SortHistLaneCount nb numTasks counts) t0
        (d + d / 32)
    else prev d

/-! ## Reference (ideal) sums for the specification's properties -/

/-- Total of digit `d` within warp `w` (regime A): the sum of `x` over the
`32 / NumDigits` duplicate lanes of digit `d` in warp `w`. -/
def warpTot (nb : Nat) (x : Nat → Nat) (w d : Nat) : Nat :=
  sumRange (fun j => x (32 * w + j * 2 ^ nb + d)) (32 / 2 ^ nb)

/-- Grand total of digit `d` over the per-thread scan inputs: the sum of
`x` over all `1024 / NumDigits` duplicate slots of digit `d`. -/
def digitTotal (nb : Nat) (x : Nat → Nat) (d : Nat) : Nat :=
  sumRange (fun i => x (i * 2 ^ nb + d)) (1024 / 2 ^ nb)

/-- The reference exclusive prefix sum for thread `t` of the strided
digit-major order (all duplicate slots of digit `0`, then digit `1`, ...):
every earlier digit's grand total plus the earlier duplicates of `t`'s
own digit (`t` is duplicate `t / NumDigits` of digit `t % NumDigits`). -/
def refStrided (nb : Nat) (x : Nat → Nat) (t : Nat) : Nat :=
  sumRange (digitTotal nb x) (t % 2 ^ nb) +
    sumRange (fun i => x (i * 2 ^ nb + t % 2 ^ nb)) (t / 2 ^ nb)

/-- Grand total of digit `d` over the per-block counts:
`sum_b counts[NumDigits * b + d]` for `b < numTasks`. -/
def blockDigitTotal (nb numTasks : Nat) (counts : Nat → Nat) (d : Nat) : Nat :=
  sumRange (fun b => counts (b * 2 ^ nb + d)) numTasks

/-- The reference unscaled exclusive offset of block-count slot
`i = NumDigits * b + d` in digit-major-then-block-major order: all lower
digits' grand totals plus the counts of earlier blocks for digit `d`. -/
def refSlotExc (nb numTasks : Nat) (counts : Nat → Nat) (i : Nat) : Nat :=
  sumRange (blockDigitTotal nb numTasks counts) (i % 2 ^ nb) +
    sumRange (fun b => counts (b * 2 ^ nb + i % 2 ^ nb)) (i / 2 ^ nb)

/-- The array index of the `k`-th block-count slot in digit-major order:
`k = d * numTasks + b` maps to array index `NumDigits * b + d`. -/
def dmIdx (nb numTasks k : Nat) : Nat :=
  (k % numTasks) * 2 ^ nb + k / numTasks

/-- The ideal (unwrapped) per-thread upsweep sum of `SortHist`: the sum of
the block counts of thread `tid`'s digit over its task range, in plain
natural-number arithmetic (the embedded `SortHistLaneCount` equals this
modulo `2^32`). -/
def SortHistLaneIdeal (nb numTasks : Nat) (counts : Nat → Nat) : Nat → Nat :=
  fun tid =>
    let r := computeTaskRange (tid / 2 ^ nb) (taskQuot nb numTasks)
      (taskRem nb numTasks)
    sumRange (fun j => counts ((r.1 + j) * 2 ^ nb + tid % 2 ^ nb)) (r.2 - r.1)

/-- Modelled from the spec: the host-side reference sequential exclusive
scan for `NumBits = 5` (32 digits): the 1024 per-thread counts are laid
out in strided digit-major order (position `k` holds the count of
duplicate `k % 32` of digit `k / 32`, i.e. thread `(k % 32) * 32 + k / 32`),
and a sequential exclusive scan in `uint` arithmetic is run over that
sequence. -/
def hostRefScan32 (x : Nat → Nat) : Nat → Nat
  | 0 => 0
  | k + 1 => (hostRefScan32 x k + x (k % 32 * 32 + k / 32)) % uMod

/-! ## Reduction policy composition (b40c policy.cuh) -/

/-- The parameter list of a `KernelPolicy` instantiation as composed by
`Policy` (policy.cuh lines 97-143); the problem-type parameters are not
relevant to the composition invariants and are omitted. -/
structure KernelPolicyCfg where
  cudaArch : Nat
  checkAlignment : Bool
  maxCtaOccupancy : Nat
  logThreads : Nat
  logLoadVecSize : Nat
  logLoadsPerTile : Nat
  readModifier : Nat
  writeModifier : Nat
  workStealing : Bool
  logScheduleGranularity : Nat
  deriving DecidableEq

/-- The tunable parameters of the unified reduction `Policy` template
(policy.cuh lines 49-74). -/
structure PolicyTunables where
  cudaArch : Nat
  readModifier : Nat
  writeModifier : Nat
  workStealing : Bool
  uniformSmemAllocation : Bool
  uniformGridSize : Bool
  oversubscribedGridSize : Bool
  upsweepMaxCtaOccupancy : Nat
  upsweepLogThreads : Nat
  upsweepLogLoadVecSize : Nat
  upsweepLogLoadsPerTile : Nat
  upsweepLogScheduleGranularity : Nat
  spineLogThreads : Nat
  spineLogLoadVecSize : Nat
  spineLogLoadsPerTile : Nat
  deriving DecidableEq

/-- `Policy::Upsweep` (policy.cuh lines 97-109). -/
def upsweepCfg (p : PolicyTunables) : KernelPolicyCfg :=
  { cudaArch := p.cudaArch
    checkAlignment := true
    maxCtaOccupancy := p.upsweepMaxCtaOccupancy
    logThreads := p.upsweepLogThreads
    logLoadVecSize := p.upsweepLogLoadVecSize
    logLoadsPerTile := p.upsweepLogLoadsPerTile
    readModifier := p.readModifier
    writeModifier := p.writeModifier
    workStealing := p.workStealing
    logScheduleGranularity := p.upsweepLogScheduleGranularity }

/-- `Policy::Spine` (policy.cuh lines 114-126): single-CTA grid, no work
stealing, schedule granularity equal to its own tile size. -/
def spineCfg (p : PolicyTunables) : KernelPolicyCfg :=
  { cudaArch := p.cudaArch
    checkAlignment := false
    maxCtaOccupancy := 1
    logThreads := p.spineLogThreads
    logLoadVecSize := p.spineLogLoadVecSize
    logLoadsPerTile := p.spineLogLoadsPerTile
    readModifier := p.readModifier
    writeModifier := p.writeModifier
    workStealing := false
    logScheduleGranularity :=
      p.spineLogLoadsPerTile + p.spineLogLoadVecSize + p.spineLogThreads }

/-- `Policy::Single` (policy.cuh lines 131-143): like `Spine` but with
alignment checking enabled. -/
def singleCfg (p : PolicyTunables) : KernelPolicyCfg :=
  { cudaArch := p.cudaArch
    checkAlignment := true
    maxCtaOccupancy := 1
    logThreads := p.spineLogThreads
    logLoadVecSize := p.spineLogLoadVecSize
    logLoadsPerTile := p.spineLogLoadsPerTile
    readModifier := p.readModifier
    writeModifier := p.writeModifier
    workStealing := false
    logScheduleGranularity :=
      p.spineLogLoadsPerTile + p.spineLogLoadVecSize + p.spineLogThreads }

/-- Modelled from the spec: each sub-policy's `VALID` flag is computed by
the excluded `KernelPolicy` collaborator ("each sub-policy independently
validates things like shared-memory budget and register pressure");
the embedding abstracts it as an arbitrary function `v` of the
sub-policy's parameters.  `Policy::VALID` is then
`Upsweep::VALID & Spine::VALID` (policy.cuh line 170). -/
def policyVALID (v : KernelPolicyCfg → Bool) (p : PolicyTunables) : Bool :=
  v (upsweepCfg p) && v (spineCfg p)

/-- A launchable kernel entry point, tagged by the kernel template it
instantiates (`upsweep::Kernel` or `spine::Kernel`) and the kernel policy
it was compiled with. -/
inductive KernelPtr where
  | upsweepKernel (cfg : KernelPolicyCfg)
  | spineKernel (cfg : KernelPolicyCfg)
  deriving DecidableEq

/-- `Policy::UpsweepKernel()` (policy.cuh lines 150-152): returns
`upsweep::Kernel<Upsweep>` unconditionally.  The `Option` is the
embedding's room for a refusal (`none`); the source never refuses. -/
def UpsweepKernel (p : PolicyTunables) : Option KernelPtr :=
  some (KernelPtr.upsweepKernel (upsweepCfg p))

/-- `Policy::SpineKernel()` (policy.cuh lines 154-156): returns
`spine::Kernel<Spine>` unconditionally. -/
def SpineKernel (p : PolicyTunables) : Option KernelPtr :=
  some (KernelPtr.spineKernel (spineCfg p))

/-- `Policy::SingleKernel()` (policy.cuh lines 158-160): returns
`spine::Kernel<Single>` unconditionally. -/
def SingleKernel (p : PolicyTunables) : Option KernelPtr :=
  some (KernelPtr.spineKernel (singleCfg p))

/-! ## Arithmetic helper lemmas -/

theorem uMod_pos : 0 < uMod := by norm_num [uMod]

theorem mod_uMod_lt (a : Nat) : a % uMod < uMod := Nat.mod_lt _ uMod_pos

theorem uadd_mod (A B : Nat) : uadd (A % uMod) (B % uMod) = (A + B) % uMod := by
  unfold uadd
  rw [Nat.add_mod A B]

theorem usub_mod (A B : Nat) (h : B ≤ A) :
    usub (A % uMod) (B % uMod) = (A - B) % uMod := by
  unfold usub uMod
  omega

theorem sumRange_congr {f g : Nat → Nat} {n : Nat}
    (h : ∀ i, i < n → f i = g i) : sumRange f n = sumRange g n := by
  induction n with
  | zero => rfl
  | succ n ih =>
    simp only [sumRange]
    rw [ih (fun i hi => h i (Nat.lt_succ_of_lt hi)), h n (Nat.lt_succ_self n)]

theorem sumRange_add (f : Nat → Nat) (m n : Nat) :
    sumRange f (m + n) = sumRange f m + sumRange (fun i => f (m + i)) n := by
  induction n with
  | zero => rfl
  | succ n ih =>
    show sumRange f (m + n) + f (m + n)
        = sumRange f m + (sumRange (fun i => f (m + i)) n + f (m + n))
    rw [ih]
    omega

theorem sumRange_succ_left (f : Nat → Nat) (n : Nat) :
    sumRange f (n + 1) = f 0 + sumRange (fun i => f (i + 1)) n := by
  induction n with
  | zero =>
    show 0 + f 0 = f 0 + 0
    omega
  | succ n ih =>
    show sumRange f (n + 1) + f (n + 1)
        = f 0 + (sumRange (fun i => f (i + 1)) n + f (n + 1))
    rw [ih]
    omega

theorem sumRange_reverse (f : Nat → Nat) (n : Nat) :
    sumRange f n = sumRange (fun i => f (n - 1 - i)) n := by
  induction n generalizing f with
  | zero => rfl
  | succ n ih =>
    have h1 : sumRange (fun i => f (n + 1 - 1 - i)) (n + 1)
        = f n + sumRange (fun i => f (n - 1 - i)) n := by
      rw [sumRange_succ_left]
      show f n + sumRange (fun i => f (n + 1 - 1 - (i + 1))) n
          = f n + sumRange (fun i => f (n - 1 - i)) n
      congr 1
      apply sumRange_congr
      intro i hi
      congr 1
      omega
    rw [h1, ← ih]
    show sumRange f n + f n = f n + sumRange f n
    omega

theorem sumRange_flatten (g : Nat → Nat) (c W : Nat) :
    sumRange (fun w => sumRange (fun j => g (w * c + j)) c) W =
      sumRange g (W * c) := by
  induction W with
  | zero => simp [sumRange]
  | succ W ih =>
    have h1 : sumRange (fun w => sumRange (fun j => g (w * c + j)) c) (W + 1)
        = sumRange g (W * c) + sumRange (fun j => g (W * c + j)) c := by
      show sumRange (fun w => sumRange (fun j => g (w * c + j)) c) W
            + sumRange (fun j => g (W * c + j)) c = _
      rw [ih]
    rw [h1, ← sumRange_add g (W * c) c, Nat.succ_mul]

theorem sumRange_le_of_lt (f : Nat → Nat) {j n : Nat} (h : j < n) :
    f j ≤ sumRange f n := by
  induction n with
  | zero => omega
  | succ n ih =>
    rcases Nat.lt_succ_iff_lt_or_eq.mp h with h' | h'
    · exact Nat.le_trans (ih h') (Nat.le_add_right _ _)
    · subst h'
      exact Nat.le_add_left _ _

theorem sumRange_mono (f : Nat → Nat) {n m : Nat} (h : n ≤ m) :
    sumRange f n ≤ sumRange f m := by
  induction m with
  | zero => simp_all
  | succ m ih =>
    rcases Nat.lt_succ_iff_lt_or_eq.mp (Nat.lt_succ_of_le h) with h' | h'
    · exact Nat.le_trans (ih (Nat.lt_succ_iff.mp h')) (Nat.le_add_right _ _)
    · subst h'
      exact Nat.le_refl _

theorem sumRange_indicator (r n : Nat) :
    sumRange (fun c => if c < r then 1 else 0) n = min r n := by
  induction n with
  | zero => simp [sumRange]
  | succ n ih =>
    simp only [sumRange, ih]
    by_cases h : n < r <;> simp [h] <;> omega

theorem uSumRange_eq (f g : Nat → Nat) (n : Nat)
    (h : ∀ i, i < n → f i = g i % uMod) :
    uSumRange f n = sumRange g n % uMod := by
  induction n with
  | zero => simp [uSumRange, sumRange, Nat.mod_eq_of_lt uMod_pos]
  | succ n ih =>
    simp only [uSumRange, sumRange]
    rw [ih (fun i hi => h i (Nat.lt_succ_of_lt hi)), h n (Nat.lt_succ_self n),
      ← Nat.add_mod]

theorem usub_mod' (A B : Nat) (hBA : B ≤ A) (hB : B < uMod) :
    usub (A % uMod) B = (A - B) % uMod := by
  unfold usub uMod at *
  omega

/-! ## Regime A correctness -/

theorem phase0_spec (nb : Nat) (x : Nat → Nat) (hx : ∀ t, x t < uMod)
    (k t : Nat) :
    phase0 nb x k t =
      sumRange (fun j => x (t - j * 2 ^ nb))
        (min (2 ^ k) (t % 32 / 2 ^ nb + 1)) % uMod := by
  induction k generalizing t with
  | zero =>
    have h1 : min (2 ^ 0) (t % 32 / 2 ^ nb + 1) = 1 := by
      have h2 : (2 : Nat) ^ 0 = 1 := by norm_num
      rw [h2]
      exact Nat.min_eq_left (Nat.succ_le_succ (Nat.zero_le _))
    rw [h1]
    show x t = (0 + x (t - 0 * 2 ^ nb)) % uMod
    simp [Nat.mod_eq_of_lt (hx t)]
  | succ k ih =>
    have hnd : 0 < 2 ^ nb := by positivity
    have hp : (2 : Nat) ^ (k + 1) = 2 ^ k + 2 ^ k := by
      rw [pow_succ]
      omega
    show scanStepA (2 ^ nb * 2 ^ k) (phase0 nb x k) t = _
    unfold scanStepA
    by_cases h : 2 ^ nb * 2 ^ k ≤ t % 32
    · have hqk : 2 ^ k ≤ t % 32 / 2 ^ nb :=
        (Nat.le_div_iff_mul_le hnd).mpr (by rw [Nat.mul_comm]; exact h)
      have hmod : (t - 2 ^ nb * 2 ^ k) % 32 = t % 32 - 2 ^ nb * 2 ^ k := by
        generalize 2 ^ nb * 2 ^ k = o at h ⊢
        omega
      have hdiv : (t % 32 - 2 ^ nb * 2 ^ k) / 2 ^ nb = t % 32 / 2 ^ nb - 2 ^ k :=
        Nat.sub_mul_div _ _ _ h
      have hmin1 : min (2 ^ k) (t % 32 / 2 ^ nb + 1) = 2 ^ k :=
        Nat.min_eq_left (Nat.le_succ_of_le hqk)
      have hcount : min (2 ^ (k + 1)) (t % 32 / 2 ^ nb + 1)
          = 2 ^ k + min (2 ^ k) (t % 32 / 2 ^ nb - 2 ^ k + 1) := by
        rw [hp]
        generalize t % 32 / 2 ^ nb = q at hqk ⊢
        generalize 2 ^ k = pk at hqk ⊢
        omega
      rw [if_pos h, ih, ih, hmod, hdiv, hmin1, hcount, ← Nat.add_mod,
        sumRange_add]
      congr 1
      congr 1
      apply sumRange_congr
      intro i _
      show x (t - 2 ^ nb * 2 ^ k - i * 2 ^ nb) = x (t - (2 ^ k + i) * 2 ^ nb)
      rw [Nat.sub_sub]
      congr 1
      ring
    · have hq : t % 32 / 2 ^ nb < 2 ^ k :=
        (Nat.div_lt_iff_lt_mul hnd).mpr (by rw [Nat.mul_comm]; omega)
      have hcount : min (2 ^ (k + 1)) (t % 32 / 2 ^ nb + 1)
          = min (2 ^ k) (t % 32 / 2 ^ nb + 1) := by
        rw [hp]
        generalize t % 32 / 2 ^ nb = q at hq ⊢
        generalize 2 ^ k = pk at hq ⊢
        omega
      rw [if_neg h, ih, hcount]

theorem phase0_final (nb : Nat) (hnb : nb ≤ 5) (x : Nat → Nat)
    (hx : ∀ t, x t < uMod) (t : Nat) :
    phase0 nb x (5 - nb) t =
      sumRange (fun j => x (t - j * 2 ^ nb)) (t % 32 / 2 ^ nb + 1) % uMod := by
  have hnd : 0 < 2 ^ nb := by positivity
  have h32 : 2 ^ nb * 2 ^ (5 - nb) = 32 := by
    rw [← pow_add]
    have h5 : nb + (5 - nb) = 5 := by omega
    rw [h5]
    norm_num
  have hq : t % 32 / 2 ^ nb < 2 ^ (5 - nb) := by
    apply (Nat.div_lt_iff_lt_mul hnd).mpr
    rw [Nat.mul_comm, h32]
    omega
  rw [phase0_spec nb x hx]
  have hmin : min (2 ^ (5 - nb)) (t % 32 / 2 ^ nb + 1)
      = t % 32 / 2 ^ nb + 1 := Nat.min_eq_right hq
  rw [hmin]

theorem laneExcA_canon (nb : Nat) (hnb : nb ≤ 5) (x : Nat → Nat)
    (hx : ∀ t, x t < uMod) (t : Nat) :
    laneExcA nb x t =
      sumRange (fun j => x (32 * (t / 32) + j * 2 ^ nb + t % 2 ^ nb))
        (t % 32 / 2 ^ nb) % uMod := by
  have hnd : 0 < 2 ^ nb := by positivity
  have hdvd : (2 : Nat) ^ nb ∣ 32 := by
    have h1 : (32 : Nat) = 2 ^ 5 := by norm_num
    rw [h1]
    exact pow_dvd_pow 2 hnb
  unfold laneExcA
  rw [phase0_final nb hnb x hx t]
  have hle : x t ≤ sumRange (fun j => x (t - j * 2 ^ nb)) (t % 32 / 2 ^ nb + 1) := by
    have h0 := sumRange_le_of_lt (fun j => x (t - j * 2 ^ nb))
      (Nat.succ_pos (t % 32 / 2 ^ nb))
    simpa using h0
  rw [usub_mod' _ _ hle (hx t)]
  congr 1
  rw [sumRange_succ_left]
  have h0 : x (t - 0 * 2 ^ nb) = x t := by simp
  rw [h0, Nat.add_sub_cancel_left]
  rw [sumRange_reverse (fun j => x (32 * (t / 32) + j * 2 ^ nb + t % 2 ^ nb))]
  apply sumRange_congr
  intro j hj
  obtain ⟨m, hm⟩ : ∃ m, t % 32 / 2 ^ nb = j + 1 + m := by
    generalize t % 32 / 2 ^ nb = q at hj ⊢
    exact ⟨q - (j + 1), by omega⟩
  have hd : t % 2 ^ nb = t % 32 % 2 ^ nb := (Nat.mod_mod_of_dvd t hdvd).symm
  have hL : t % 32 = t % 32 / 2 ^ nb * 2 ^ nb + t % 2 ^ nb := by
    rw [hd, Nat.mul_comm]
    exact (Nat.div_add_mod (t % 32) (2 ^ nb)).symm
  have ht : t = 32 * (t / 32) + t % 32 := (Nat.div_add_mod t 32).symm
  have hrev : t % 32 / 2 ^ nb - 1 - j = m := by
    rw [hm]
    omega
  rw [hrev]
  congr 1
  have hexp : (j + 1 + m) * 2 ^ nb = (j + 1) * 2 ^ nb + m * 2 ^ nb := by ring
  rw [hm, hexp] at hL
  generalize (j + 1) * 2 ^ nb = a at hL ⊢
  generalize m * 2 ^ nb = b at hL ⊢
  generalize t % 2 ^ nb = dd at hL ⊢
  omega

theorem sharedDeposit_spec (nb : Nat) (hnb : nb ≤ 4) (x : Nat → Nat)
    (hx : ∀ t, x t < uMod) (d w : Nat) (hd : d < 2 ^ nb) (hw : w < 32) :
    sharedDeposit nb x (33 * d + w) = warpTot nb x w d % uMod := by
  have hnd : 0 < 2 ^ nb := by positivity
  have h16 : (2 : Nat) ^ nb ≤ 16 := by
    calc (2 : Nat) ^ nb ≤ 2 ^ 4 := Nat.pow_le_pow_right (by norm_num) hnb
    _ = 16 := by norm_num
  have h32 : 2 ^ nb * 2 ^ (5 - nb) = 32 := by
    rw [← pow_add]
    have h5 : nb + (5 - nb) = 5 := by omega
    rw [h5]
    norm_num
  have hc1 : 1 ≤ 2 ^ (5 - nb) := Nat.one_le_two_pow
  have h1 : (33 * d + w) % 33 = w := by omega
  have h2 : (33 * d + w) / 33 = d := by omega
  unfold sharedDeposit
  rw [h1, h2, if_pos ⟨hw, hd⟩, phase0_final nb (by omega) x hx]
  have hmul : 2 ^ nb * (2 ^ (5 - nb) - 1) + 2 ^ nb = 2 ^ nb * 2 ^ (5 - nb) := by
    rw [← Nat.mul_succ]
    congr 1
    omega
  have harg : 32 - 2 ^ nb + d = 2 ^ nb * (2 ^ (5 - nb) - 1) + d := by
    generalize 2 ^ nb * 2 ^ (5 - nb) = C at hmul h32
    generalize 2 ^ nb * (2 ^ (5 - nb) - 1) = A at hmul ⊢
    generalize 2 ^ nb = B at hmul hd h16 hnd ⊢
    omega
  have hlt : 32 - 2 ^ nb + d < 32 := by
    generalize 2 ^ nb = nd at hd hnd h16 ⊢
    omega
  have hmod : (32 * w + (32 - 2 ^ nb) + d) % 32 = 32 - 2 ^ nb + d := by
    have h' : 32 * w + (32 - 2 ^ nb) + d = 32 - 2 ^ nb + d + w * 32 := by ring
    rw [h', Nat.add_mul_mod_self_right, Nat.mod_eq_of_lt hlt]
  rw [hmod, harg, Nat.mul_add_div hnd, Nat.div_eq_of_lt hd]
  have hdiv32 : 32 / 2 ^ nb = 2 ^ (5 - nb) :=
    Nat.div_eq_of_eq_mul_left hnd (by rw [Nat.mul_comm]; exact h32.symm)
  have hcnt : 2 ^ (5 - nb) - 1 + 0 + 1 = 32 / 2 ^ nb := by
    rw [hdiv32]
    generalize 2 ^ (5 - nb) = c at hc1 ⊢
    omega
  rw [hcnt]
  congr 1
  unfold warpTot
  rw [sumRange_reverse (fun j => x (32 * w + j * 2 ^ nb + d))]
  apply sumRange_congr
  intro j hj
  rw [hdiv32] at hj ⊢
  obtain ⟨m, hm⟩ : ∃ m, 2 ^ (5 - nb) - 1 = j + m := by
    generalize 2 ^ (5 - nb) = c at hj ⊢
    exact ⟨c - 1 - j, by omega⟩
  have hrev : 2 ^ (5 - nb) - 1 - j = m := by
    rw [hm]
    omega
  rw [hrev]
  congr 1
  have hexp : 2 ^ nb * (j + m) = j * 2 ^ nb + m * 2 ^ nb := by ring
  have harg2 : 2 ^ nb * (2 ^ (5 - nb) - 1) = j * 2 ^ nb + m * 2 ^ nb := by
    rw [hm, hexp]
  generalize j * 2 ^ nb = a at harg2 ⊢
  generalize m * 2 ^ nb = b at harg2 ⊢
  generalize 2 ^ nb * (2 ^ (5 - nb) - 1) = A at harg harg2
  generalize 32 - 2 ^ nb = E at harg ⊢
  omega

theorem phase2_spec (nb : Nat) (hnb : nb ≤ 4) (x : Nat → Nat)
    (hx : ∀ t, x t < uMod) (k d : Nat) (hd : d < 2 ^ nb) :
    ∀ L, L < 32 →
      phase2 nb x k (33 * d + L) =
        sumRange (fun j => warpTot nb x (L - j) d) (min (2 ^ k) (L + 1)) % uMod := by
  induction k with
  | zero =>
    intro L hL
    have h1 : min (2 ^ 0) (L + 1) = 1 := by
      have h2 : (2 : Nat) ^ 0 = 1 := by norm_num
      rw [h2]
      omega
    rw [h1]
    show sharedDeposit nb x (33 * d + L) = (0 + warpTot nb x (L - 0) d) % uMod
    rw [sharedDeposit_spec nb hnb x hx d L hd hL]
    simp
  | succ k ih =>
    intro L hL
    have hp : (2 : Nat) ^ (k + 1) = 2 ^ k + 2 ^ k := by
      rw [pow_succ]
      omega
    have h1 : (33 * d + L) % 33 = L := by omega
    have h2 : (33 * d + L) / 33 = d := by omega
    show scanStepW nb (2 ^ k) (phase2 nb x k) (33 * d + L) = _
    unfold scanStepW
    rw [h1, h2]
    by_cases h : 2 ^ k ≤ L
    · have hsub : 33 * d + L - 2 ^ k = 33 * d + (L - 2 ^ k) := by
        generalize 2 ^ k = pk at h ⊢
        omega
      rw [if_pos ⟨hd, hL, h⟩, hsub, ih L hL,
        ih (L - 2 ^ k) (Nat.lt_of_le_of_lt (Nat.sub_le _ _) hL)]
      have hmin1 : min (2 ^ k) (L + 1) = 2 ^ k := by
        generalize 2 ^ k = pk at h ⊢
        omega
      have hcount : min (2 ^ (k + 1)) (L + 1)
          = 2 ^ k + min (2 ^ k) (L - 2 ^ k + 1) := by
        rw [hp]
        generalize 2 ^ k = pk at h ⊢
        omega
      rw [hmin1, hcount, ← Nat.add_mod, sumRange_add]
      congr 2
      apply sumRange_congr
      intro i _
      show warpTot nb x (L - 2 ^ k - i) d = warpTot nb x (L - (2 ^ k + i)) d
      rw [Nat.sub_sub]
    · have hcount : min (2 ^ (k + 1)) (L + 1) = min (2 ^ k) (L + 1) := by
        rw [hp]
        generalize 2 ^ k = pk at h ⊢
        omega
      rw [if_neg (by tauto), ih L hL, hcount]

theorem totalsDeposit_spec (nb : Nat) (hnb : nb ≤ 4) (x t0 : Nat → Nat)
    (hx : ∀ t, x t < uMod) (d : Nat) (hd : d < 2 ^ nb) :
    totalsDeposit nb x t0 d = digitTotal nb x d % uMod := by
  have hnd : 0 < 2 ^ nb := by positivity
  have h32 : 2 ^ nb * 2 ^ (5 - nb) = 32 := by
    rw [← pow_add]
    have h5 : nb + (5 - nb) = 5 := by omega
    rw [h5]
    norm_num
  have hcm : 2 ^ (5 - nb) * 2 ^ nb = 32 := by
    rw [Nat.mul_comm]
    exact h32
  have hdiv32 : 32 / 2 ^ nb = 2 ^ (5 - nb) :=
    Nat.div_eq_of_eq_mul_left hnd (by rw [Nat.mul_comm]; exact h32.symm)
  have hWc : 1024 / 2 ^ nb = 32 * 2 ^ (5 - nb) :=
    Nat.div_eq_of_eq_mul_left hnd (by rw [Nat.mul_assoc, hcm])
  unfold totalsDeposit
  rw [if_pos hd, phase2_spec nb hnb x hx 5 d hd 31 (by norm_num)]
  have hmin : min (2 ^ 5) (31 + 1) = 32 := by norm_num
  rw [hmin]
  congr 1
  rw [sumRange_reverse (fun j => warpTot nb x (31 - j) d)]
  unfold digitTotal
  rw [hWc, ← sumRange_flatten (fun q => x (q * 2 ^ nb + d)) (2 ^ (5 - nb)) 32]
  apply sumRange_congr
  intro w hw
  have hidx : 31 - (32 - 1 - w) = w := by omega
  rw [hidx]
  unfold warpTot
  rw [hdiv32]
  apply sumRange_congr
  intro j hj
  congr 1
  rw [Nat.add_mul, Nat.mul_assoc, hcm]
  ring

theorem sharedWarpExc_spec (nb : Nat) (hnb : nb ≤ 4) (x : Nat → Nat)
    (hx : ∀ t, x t < uMod) (d w : Nat) (hd : d < 2 ^ nb) (hw : w < 32) :
    sharedWarpExc nb x (33 * d + w)
      = sumRange (fun i => warpTot nb x i d) w % uMod := by
  have h1 : (33 * d + w) % 33 = w := by omega
  have h2 : (33 * d + w) / 33 = d := by omega
  unfold sharedWarpExc
  rw [h1, h2, if_pos ⟨hd, hw⟩, phase2_spec nb hnb x hx 5 d hd w hw,
    sharedDeposit_spec nb hnb x hx d w hd hw]
  have hmin : min (2 ^ 5) (w + 1) = w + 1 := by
    have h5 : (2 : Nat) ^ 5 = 32 := by norm_num
    rw [h5]
    omega
  rw [hmin]
  have hrev : sumRange (fun j => warpTot nb x (w - j) d) (w + 1)
      = sumRange (fun i => warpTot nb x i d) (w + 1) := by
    rw [sumRange_reverse (fun i => warpTot nb x i d)]
    apply sumRange_congr
    intro j hj
    rfl
  rw [hrev, usub_mod _ _ (sumRange_le_of_lt _ (Nat.lt_succ_self w))]
  congr 1
  show sumRange (fun i => warpTot nb x i d) w + warpTot nb x w d
      - warpTot nb x w d = _
  omega

theorem phase3_spec (nb : Nat) (hnb1 : 1 ≤ nb) (hnb : nb ≤ 4) (x t0 : Nat → Nat)
    (hx : ∀ t, x t < uMod) (k : Nat) : k ≤ nb - 1 → ∀ d, d < 2 ^ nb →
    phase3 nb x t0 k d =
      sumRange (fun j => digitTotal nb x (d - j)) (min (2 ^ k) (d + 1)) % uMod := by
  induction k with
  | zero =>
    intro _ d hd
    have h1 : min (2 ^ 0) (d + 1) = 1 := by
      have h2 : (2 : Nat) ^ 0 = 1 := by norm_num
      rw [h2]
      exact Nat.min_eq_left (Nat.succ_le_succ (Nat.zero_le _))
    rw [h1]
    show totalsDeposit nb x t0 d = (0 + digitTotal nb x (d - 0)) % uMod
    rw [totalsDeposit_spec nb hnb x t0 hx d hd]
    simp
  | succ k ih =>
    intro hk d hd
    have hknb : ¬(k = nb - 1) := by omega
    have hp : (2 : Nat) ^ (k + 1) = 2 ^ k + 2 ^ k := by
      rw [pow_succ]
      omega
    show totalsStep nb k (totalsDeposit nb x t0) (phase3 nb x t0 k) d = _
    unfold totalsStep
    rw [if_pos hd]
    show (if k = nb - 1 then _ else _) = _
    rw [if_neg hknb]
    by_cases h : 2 ^ k ≤ d
    · rw [if_pos h, ih (by omega) d hd,
        ih (by omega) (d - 2 ^ k) (Nat.lt_of_le_of_lt (Nat.sub_le _ _) hd)]
      have hmin1 : min (2 ^ k) (d + 1) = 2 ^ k :=
        Nat.min_eq_left (Nat.le_succ_of_le h)
      have hcount : min (2 ^ (k + 1)) (d + 1)
          = 2 ^ k + min (2 ^ k) (d - 2 ^ k + 1) := by
        rw [hp]
        generalize 2 ^ k = pk at h ⊢
        omega
      rw [hmin1, hcount, ← Nat.add_mod, sumRange_add]
      congr 2
      apply sumRange_congr
      intro i _
      show digitTotal nb x (d - 2 ^ k - i) = digitTotal nb x (d - (2 ^ k + i))
      rw [Nat.sub_sub]
    · rw [if_neg h, ih (by omega) d hd]
      have hcount : min (2 ^ (k + 1)) (d + 1) = min (2 ^ k) (d + 1) := by
        rw [hp]
        generalize 2 ^ k = pk at h ⊢
        omega
      rw [hcount]

theorem phase3_final (nb : Nat) (hnb1 : 1 ≤ nb) (hnb : nb ≤ 4) (x t0 : Nat → Nat)
    (hx : ∀ t, x t < uMod) (d : Nat) (hd : d < 2 ^ nb) :
    phase3 nb x t0 nb d = sumRange (digitTotal nb x) d % uMod := by
  obtain ⟨p, hpnb⟩ : ∃ p, nb = p + 1 := ⟨nb - 1, by omega⟩
  subst hpnb
  have hp : (2 : Nat) ^ (p + 1) = 2 ^ p + 2 ^ p := by
    rw [pow_succ]
    omega
  have hincl : ∀ y, (if 2 ^ p ≤ d then (phase3 (p + 1) x t0 p d
        + phase3 (p + 1) x t0 p (d - 2 ^ p)) % uMod
      else phase3 (p + 1) x t0 p d) = y →
      (if 2 ^ p ≤ d then (phase3 (p + 1) x t0 p d
        + phase3 (p + 1) x t0 p (d - 2 ^ p)) % uMod
      else phase3 (p + 1) x t0 p d)
      = sumRange (fun j => digitTotal (p + 1) x (d - j)) (d + 1) % uMod := by
    intro y _
    by_cases h : 2 ^ p ≤ d
    · rw [if_pos h, phase3_spec (p + 1) hnb1 hnb x t0 hx p (by omega) d hd,
        phase3_spec (p + 1) hnb1 hnb x t0 hx p (by omega) (d - 2 ^ p)
          (Nat.lt_of_le_of_lt (Nat.sub_le _ _) hd)]
      have hmin1 : min (2 ^ p) (d + 1) = 2 ^ p :=
        Nat.min_eq_left (Nat.le_succ_of_le h)
      have hcount : d + 1 = 2 ^ p + min (2 ^ p) (d - 2 ^ p + 1) := by
        rw [hp] at hd
        generalize 2 ^ p = pk at h hd ⊢
        omega
      rw [hmin1, ← Nat.add_mod, hcount, sumRange_add]
      congr 2
      apply sumRange_congr
      intro i _
      show digitTotal (p + 1) x (d - 2 ^ p - i)
          = digitTotal (p + 1) x (d - (2 ^ p + i))
      rw [Nat.sub_sub]
    · rw [if_neg h, phase3_spec (p + 1) hnb1 hnb x t0 hx p (by omega) d hd]
      have hcount : min (2 ^ p) (d + 1) = d + 1 := by
        rw [hp] at hd
        generalize 2 ^ p = pk at h hd ⊢
        omega
      rw [hcount]
  show totalsStep (p + 1) p (totalsDeposit (p + 1) x t0) (phase3 (p + 1) x t0 p) d
      = _
  unfold totalsStep
  rw [if_pos hd]
  show (if p = p + 1 - 1 then usub _ (totalsDeposit (p + 1) x t0 d) else _) = _
  rw [if_pos (show p = p + 1 - 1 by omega)]
  rw [hincl _ rfl, totalsDeposit_spec (p + 1) hnb x t0 hx d hd]
  have hrev : sumRange (fun j => digitTotal (p + 1) x (d - j)) (d + 1)
      = sumRange (digitTotal (p + 1) x) (d + 1) := by
    rw [sumRange_reverse (digitTotal (p + 1) x)]
    apply sumRange_congr
    intro j hj
    rfl
  rw [hrev, usub_mod _ _ (sumRange_le_of_lt _ (Nat.lt_succ_self d))]
  congr 1
  show sumRange (digitTotal (p + 1) x) d + digitTotal (p + 1) x d
      - digitTotal (p + 1) x d = _
  omega

theorem multiScanA_spec (nb : Nat) (hnb1 : 1 ≤ nb) (hnb : nb ≤ 4)
    (x t0 : Nat → Nat) (hx : ∀ t, x t < uMod) (t : Nat) (ht : t < 1024) :
    multiScanA nb x t0 t = refStrided nb x t % uMod := by
  have hnd : 0 < 2 ^ nb := by positivity
  have h32 : 2 ^ nb * 2 ^ (5 - nb) = 32 := by
    rw [← pow_add]
    have h5 : nb + (5 - nb) = 5 := by omega
    rw [h5]
    norm_num
  have hcm : 2 ^ (5 - nb) * 2 ^ nb = 32 := by
    rw [Nat.mul_comm]
    exact h32
  have hdiv32 : 32 / 2 ^ nb = 2 ^ (5 - nb) :=
    Nat.div_eq_of_eq_mul_left hnd (by rw [Nat.mul_comm]; exact h32.symm)
  have hd : t % 2 ^ nb < 2 ^ nb := Nat.mod_lt t hnd
  have hw : t / 32 < 32 := by omega
  unfold multiScanA
  rw [phase3_final nb hnb1 hnb x t0 hx (t % 2 ^ nb) hd,
    sharedWarpExc_spec nb hnb x hx (t % 2 ^ nb) (t / 32) hd hw,
    laneExcA_canon nb (by omega) x hx t, uadd_mod, uadd_mod]
  congr 1
  unfold refStrided
  have hsplit : t / 2 ^ nb = t / 32 * 2 ^ (5 - nb) + t % 32 / 2 ^ nb := by
    have h' : 2 ^ nb * (2 ^ (5 - nb) * (t / 32)) = 32 * (t / 32) := by
      rw [← Nat.mul_assoc, h32]
    have ht32 : t = 2 ^ nb * (2 ^ (5 - nb) * (t / 32)) + t % 32 := by
      rw [h']
      exact (Nat.div_add_mod t 32).symm
    calc t / 2 ^ nb
        = (2 ^ nb * (2 ^ (5 - nb) * (t / 32)) + t % 32) / 2 ^ nb := by
          rw [← ht32]
    _ = 2 ^ (5 - nb) * (t / 32) + t % 32 / 2 ^ nb := by
          rw [Nat.mul_add_div hnd]
    _ = t / 32 * 2 ^ (5 - nb) + t % 32 / 2 ^ nb := by
          rw [Nat.mul_comm]
  rw [hsplit, sumRange_add, ← Nat.add_assoc]
  congr 1
  · congr 1
    rw [← sumRange_flatten (fun q => x (q * 2 ^ nb + t % 2 ^ nb))
      (2 ^ (5 - nb)) (t / 32)]
    apply sumRange_congr
    intro w' hw'
    unfold warpTot
    rw [hdiv32]
    apply sumRange_congr
    intro j hj
    congr 1
    rw [Nat.add_mul, Nat.mul_assoc, hcm]
    ring
  · apply sumRange_congr
    intro j hj
    congr 1
    rw [Nat.add_mul, Nat.mul_assoc, hcm]
    ring

/-! ## Regime B correctness -/

theorem digitFold_spec (nb : Nat) (x : Nat → Nat) (hx : ∀ t, x t < uMod)
    (d i : Nat) :
    digitFold nb x d i = sumRange (fun q => x (q * 2 ^ nb + d)) i % uMod := by
  induction i with
  | zero => rfl
  | succ i ih =>
    show (digitFold nb x d i + x (i * 2 ^ nb + d)) % uMod = _
    rw [ih, Nat.mod_add_mod]
    rfl

theorem sharedSeq_spec (nb : Nat) (x : Nat → Nat) (hx : ∀ t, x t < uMod)
    (t : Nat) (ht : t < 1024) :
    sharedSeq nb x t =
      sumRange (fun q => x (q * 2 ^ nb + t % 2 ^ nb)) (t / 2 ^ nb) % uMod := by
  unfold sharedSeq
  rw [if_pos ht, digitFold_spec nb x hx]

theorem padIdx_mod (d : Nat) (hd : d < 128) : (d + d / 32) % 33 = d % 32 := by
  omega

theorem padIdx_div (d : Nat) (hd : d < 128) : (d + d / 32) / 33 = d / 32 := by
  omega

theorem totalsSeq_pad (nb : Nat) (hnb7 : nb ≤ 7) (x t0 : Nat → Nat)
    (hx : ∀ t, x t < uMod) (d : Nat) (hd : d < 2 ^ nb) :
    totalsSeq nb x t0 (d + d / 32) = digitTotal nb x d % uMod := by
  have h128 : (2 : Nat) ^ nb ≤ 128 := by
    calc (2 : Nat) ^ nb ≤ 2 ^ 7 := Nat.pow_le_pow_right (by norm_num) hnb7
    _ = 128 := by norm_num
  have hd128 : d < 128 := by omega
  have hrec : 32 * ((d + d / 32) / 33) + (d + d / 32) % 33 = d := by omega
  unfold totalsSeq
  rw [padIdx_mod d hd128, padIdx_div d hd128]
  have hcond : d % 32 < 32 ∧ 32 * (d / 32) + d % 32 < 2 ^ nb := by
    constructor
    · omega
    · omega
  rw [if_pos hcond]
  have hdd : 32 * (d / 32) + d % 32 = d := by omega
  rw [hdd, digitFold_spec nb x hx]
  rfl

theorem totalsWarpScanned_pad (nb : Nat) (hnb7 : nb ≤ 7) (x t0 : Nat → Nat)
    (hx : ∀ t, x t < uMod) (d : Nat) (hd : d < 2 ^ nb) :
    totalsWarpScanned nb x t0 (d + d / 32)
      = sumRange (digitTotal nb x) d % uMod := by
  have h128 : (2 : Nat) ^ nb ≤ 128 := by
    calc (2 : Nat) ^ nb ≤ 2 ^ 7 := Nat.pow_le_pow_right (by norm_num) hnb7
    _ = 128 := by norm_num
  have hd128 : d < 128 := by omega
  unfold totalsWarpScanned
  rw [padIdx_mod d hd128, padIdx_div d hd128]
  have hcond : d % 32 < 32 ∧ 32 * (d / 32) + d % 32 < 2 ^ nb := ⟨by omega, by omega⟩
  rw [if_pos hcond]
  have hdd : 32 * (d / 32) + d % 32 = d := by omega
  rw [hdd]
  apply uSumRange_eq
  intro d' hd'
  exact totalsSeq_pad nb hnb7 x t0 hx d' (by omega)

theorem multiScanB_spec (nb : Nat) (hnb5 : 5 ≤ nb) (hnb7 : nb ≤ 7)
    (x t0 : Nat → Nat) (hx : ∀ t, x t < uMod) (t : Nat) (ht : t < 1024) :
    multiScanB nb x t0 t = refStrided nb x t % uMod := by
  have hnd : 0 < 2 ^ nb := by positivity
  have hd : t % 2 ^ nb < 2 ^ nb := Nat.mod_lt t hnd
  unfold multiScanB totalsB
  rw [if_pos (by omega : nb = 5 ∨ nb = 6 ∨ nb = 7),
    totalsWarpScanned_pad nb hnb7 x t0 hx (t % 2 ^ nb) hd,
    sharedSeq_spec nb x hx t ht, uadd_mod]
  rfl

/-! ## The `StridedMultiScan` master theorems -/

theorem nb_le_four_of_lt (nb : Nat) (h : 2 ^ nb < 32) : nb ≤ 4 := by
  by_contra hc
  push_neg at hc
  have h32 : (32 : Nat) ≤ 2 ^ nb := by
    calc (32 : Nat) = 2 ^ 5 := by norm_num
    _ ≤ 2 ^ nb := Nat.pow_le_pow_right (by norm_num) (by omega)
  omega

theorem five_le_nb_of_not_lt (nb : Nat) (h : ¬2 ^ nb < 32) : 5 ≤ nb := by
  by_contra hc
  push_neg at hc
  have h16 : (2 : Nat) ^ nb ≤ 16 := by
    calc (2 : Nat) ^ nb ≤ 2 ^ 4 := Nat.pow_le_pow_right (by norm_num) (by omega)
    _ = 16 := by norm_num
  omega

theorem StridedMultiScan_spec (nb : Nat) (hnb1 : 1 ≤ nb) (hnb7 : nb ≤ 7)
    (x t0 : Nat → Nat) (hx : ∀ t, x t < uMod) (t : Nat) (ht : t < 1024) :
    StridedMultiScan nb x t0 t = refStrided nb x t % uMod := by
  unfold StridedMultiScan
  by_cases h : 2 ^ nb < 32
  · rw [if_pos h]
    exact multiScanA_spec nb hnb1 (nb_le_four_of_lt nb h) x t0 hx t ht
  · rw [if_neg h]
    exact multiScanB_spec nb (five_le_nb_of_not_lt nb h) hnb7 x t0 hx t ht

theorem StridedMultiScanTotals_spec (nb : Nat) (hnb1 : 1 ≤ nb) (hnb7 : nb ≤ 7)
    (x t0 : Nat → Nat) (hx : ∀ t, x t < uMod) (d : Nat) (hd : d < 2 ^ nb) :
    StridedMultiScanTotals nb x t0 (d + d / 32)
      = sumRange (digitTotal nb x) d % uMod := by
  unfold StridedMultiScanTotals
  by_cases h : 2 ^ nb < 32
  · rw [if_pos h]
    have hd32 : d + d / 32 = d := by omega
    rw [hd32]
    exact phase3_final nb hnb1 (nb_le_four_of_lt nb h) x t0 hx d hd
  · rw [if_neg h]
    have hnb5 : 5 ≤ nb := five_le_nb_of_not_lt nb h
    unfold totalsB
    rw [if_pos (by omega : nb = 5 ∨ nb = 6 ∨ nb = 7)]
    exact totalsWarpScanned_pad nb hnb7 x t0 hx d hd

/-! ## `SortHist` correctness -/

theorem sumRange_add_distrib (f g : Nat → Nat) (n : Nat) :
    sumRange (fun i => f i + g i) n = sumRange f n + sumRange g n := by
  induction n with
  | zero => rfl
  | succ n ih =>
    show sumRange (fun i => f i + g i) n + (f n + g n) = _
    rw [ih]
    show _ = sumRange f n + f n + (sumRange g n + g n)
    omega

theorem sumRange_zero (n : Nat) : sumRange (fun _ => 0) n = 0 := by
  induction n with
  | zero => rfl
  | succ n ih =>
    show sumRange (fun _ => 0) n + 0 = 0
    rw [ih]

theorem sumRange_swap (h : Nat → Nat → Nat) (A B : Nat) :
    sumRange (fun a => sumRange (fun b => h a b) B) A
      = sumRange (fun b => sumRange (fun a => h a b) A) B := by
  induction A with
  | zero =>
    have hz : sumRange (fun b => sumRange (fun a => h a b) 0) B
        = sumRange (fun _ => 0) B := by
      apply sumRange_congr
      intro i _
      rfl
    rw [hz, sumRange_zero]
    rfl
  | succ A ihA =>
    show sumRange (fun a => sumRange (h a) B) A + sumRange (h A) B = _
    rw [ihA, ← sumRange_add_distrib]
    rfl

theorem sumRange_mod_eq (f g : Nat → Nat) (n : Nat)
    (h : ∀ i, i < n → f i % uMod = g i % uMod) :
    sumRange f n % uMod = sumRange g n % uMod := by
  induction n with
  | zero => rfl
  | succ n ih =>
    show (sumRange f n + f n) % uMod = (sumRange g n + g n) % uMod
    rw [Nat.add_mod, ih (fun i hi => h i (Nat.lt_succ_of_lt hi)),
      h n (Nat.lt_succ_self n), ← Nat.add_mod]

theorem computeTaskRange_fst (col quot rem : Nat) :
    (computeTaskRange col quot rem).1 = quot * col + min col rem := rfl

theorem computeTaskRange_snd (col quot rem : Nat) :
    (computeTaskRange col quot rem).2
      = quot * col + min col rem + quot + (if col < rem then 1 else 0) := rfl

theorem rangeStart_zero (quot rem : Nat) :
    (computeTaskRange 0 quot rem).1 = 0 := by
  rw [computeTaskRange_fst]
  simp

theorem rangeStart_succ (col quot rem : Nat) :
    (computeTaskRange (col + 1) quot rem).1 = (computeTaskRange col quot rem).2 := by
  rw [computeTaskRange_fst, computeTaskRange_snd]
  have hexp : quot * (col + 1) = quot * col + quot := by ring
  rw [hexp]
  by_cases h : col < rem
  · rw [if_pos h]
    have hmin1 : min (col + 1) rem = min col rem + 1 := by omega
    omega
  · rw [if_neg h]
    have hmin1 : min (col + 1) rem = min col rem := by omega
    omega

theorem range_le (col quot rem : Nat) :
    (computeTaskRange col quot rem).1 ≤ (computeTaskRange col quot rem).2 := by
  rw [computeTaskRange_fst, computeTaskRange_snd]
  omega

theorem range_prefix (quot rem : Nat) (g : Nat → Nat) (c : Nat) :
    sumRange (fun col =>
      sumRange (fun j => g ((computeTaskRange col quot rem).1 + j))
        ((computeTaskRange col quot rem).2 - (computeTaskRange col quot rem).1)) c
    = sumRange g ((computeTaskRange c quot rem).1) := by
  induction c with
  | zero =>
    rw [rangeStart_zero]
    rfl
  | succ c ih =>
    show sumRange _ c + _ = _
    rw [ih, rangeStart_succ,
      ← Nat.add_sub_cancel' (range_le c quot rem), sumRange_add]

theorem colOf_spec (cols quot rem b : Nat) (hrem : rem < cols)
    (hb : b < cols * quot + rem) :
    (computeTaskRange (colOf quot rem b) quot rem).1 ≤ b ∧
    b < (computeTaskRange (colOf quot rem b) quot rem).2 ∧
    colOf quot rem b < cols := by
  unfold colOf
  by_cases hc : b < rem * (quot + 1)
  · simp only [if_pos hc]
    have hq1 : 0 < quot + 1 := Nat.succ_pos quot
    have hcol : b / (quot + 1) < rem :=
      (Nat.div_lt_iff_lt_mul hq1).mpr hc
    have hdm : (quot + 1) * (b / (quot + 1)) + b % (quot + 1) = b :=
      Nat.div_add_mod b (quot + 1)
    have hmod : b % (quot + 1) < quot + 1 := Nat.mod_lt b hq1
    rw [computeTaskRange_fst, computeTaskRange_snd,
      Nat.min_eq_left (Nat.le_of_lt hcol), if_pos hcol]
    have hexp : (quot + 1) * (b / (quot + 1))
        = quot * (b / (quot + 1)) + b / (quot + 1) := by ring
    rw [hexp] at hdm
    generalize quot * (b / (quot + 1)) = A at hdm ⊢
    generalize b / (quot + 1) = c at hdm hcol ⊢
    generalize b % (quot + 1) = e at hdm hmod
    refine ⟨by omega, by omega, by omega⟩
  · simp only [if_neg hc]
    push_neg at hc
    have hq1 : 1 ≤ quot := by
      by_contra hq0
      push_neg at hq0
      have hq : quot = 0 := by omega
      rw [hq] at hc hb
      simp at hc hb
      omega
    have hdm : quot * ((b - rem * (quot + 1)) / quot)
        + (b - rem * (quot + 1)) % quot = b - rem * (quot + 1) :=
      Nat.div_add_mod _ _
    have hmod : (b - rem * (quot + 1)) % quot < quot := Nat.mod_lt _ (by omega)
    have hD : (b - rem * (quot + 1)) / quot < cols - rem := by
      apply (Nat.div_lt_iff_lt_mul (by omega)).mpr
      have h1 : (cols - rem) * quot = cols * quot - rem * quot :=
        Nat.sub_mul cols rem quot
      have h2 : rem * (quot + 1) = rem * quot + rem := by ring
      have h3 : rem * quot ≤ cols * quot :=
        Nat.mul_le_mul_right quot (Nat.le_of_lt hrem)
      generalize rem * quot = RQ at h1 h2 h3
      generalize cols * quot = CQ at h1 h3 hb
      generalize rem * (quot + 1) = R at h2 hc ⊢
      generalize (cols - rem) * quot = P at h1 ⊢
      omega
    have hcolge : ¬(rem + (b - rem * (quot + 1)) / quot < rem) :=
      Nat.not_lt.mpr (Nat.le_add_right rem _)
    rw [computeTaskRange_fst, computeTaskRange_snd,
      Nat.min_eq_right (Nat.le_add_right rem _), if_neg hcolge]
    have hexp : quot * (rem + (b - rem * (quot + 1)) / quot)
        = quot * rem + quot * ((b - rem * (quot + 1)) / quot) := by ring
    have hexp2 : rem * (quot + 1) = quot * rem + rem := by ring
    rw [hexp]
    generalize quot * ((b - rem * (quot + 1)) / quot) = A at hdm ⊢
    generalize (b - rem * (quot + 1)) / quot = D at hdm hD ⊢
    generalize (b - rem * (quot + 1)) % quot = e at hdm hmod
    generalize rem * (quot + 1) = R at hdm hc hexp2
    generalize quot * rem = B at hexp2 ⊢
    refine ⟨by omega, by omega, by omega⟩

theorem upsweepCount_spec (mem : Nat → Nat) (start stride n : Nat) :
    upsweepCount mem start stride n
      = sumRange (fun j => mem (start + j * stride)) n % uMod := by
  induction n with
  | zero => rfl
  | succ n ih =>
    show (upsweepCount mem start stride n + mem (start + n * stride)) % uMod = _
    rw [ih, Nat.mod_add_mod]
    rfl

theorem upsweepCount_lt (mem : Nat → Nat) (start stride n : Nat) :
    upsweepCount mem start stride n < uMod := by
  cases n with
  | zero => exact uMod_pos
  | succ n => exact mod_uMod_lt _

theorem downsweepExc_spec (mem : Nat → Nat) (msVal start stride : Nat)
    (hms : msVal < uMod) (j : Nat) :
    downsweepExc mem msVal start stride j
      = (msVal + sumRange (fun q => mem (start + q * stride)) j) % uMod := by
  induction j with
  | zero =>
    show msVal = (msVal + 0) % uMod
    rw [Nat.add_zero, Nat.mod_eq_of_lt hms]
  | succ j ih =>
    show (downsweepExc mem msVal start stride j + mem (start + j * stride)) % uMod = _
    rw [ih, Nat.mod_add_mod]
    show (msVal + sumRange (fun q => mem (start + q * stride)) j
      + mem (start + j * stride)) % uMod = _
    rw [Nat.add_assoc]
    rfl

theorem SortHistLaneCount_spec (nb numTasks : Nat) (counts : Nat → Nat)
    (tid : Nat) :
    SortHistLaneCount nb numTasks counts tid
      = SortHistLaneIdeal nb numTasks counts tid % uMod := by
  unfold SortHistLaneCount SortHistLaneIdeal
  rw [upsweepCount_spec]
  congr 1
  apply sumRange_congr
  intro j _
  congr 1
  ring

theorem StridedMultiScan_lt (nb : Nat) (x t0 : Nat → Nat) (t : Nat) :
    StridedMultiScan nb x t0 t < uMod := by
  unfold StridedMultiScan multiScanA multiScanB uadd
  by_cases h : 2 ^ nb < 32
  · rw [if_pos h]
    exact mod_uMod_lt _
  · rw [if_neg h]
    exact mod_uMod_lt _

theorem digitTotal_lane (nb numTasks : Nat) (hnb7 : nb ≤ 7)
    (counts : Nat → Nat) (d : Nat) (hd : d < 2 ^ nb) :
    digitTotal nb (SortHistLaneIdeal nb numTasks counts) d
      = blockDigitTotal nb numTasks counts d := by
  have hnd : 0 < 2 ^ nb := by positivity
  have h128 : (2 : Nat) ^ nb ≤ 128 := by
    calc (2 : Nat) ^ nb ≤ 2 ^ 7 := Nat.pow_le_pow_right (by norm_num) hnb7
    _ = 128 := by norm_num
  have hNCpos : 0 < 1024 / 2 ^ nb := Nat.div_pos (by omega) hnd
  unfold digitTotal blockDigitTotal
  have hcongr : ∀ i, i < 1024 / 2 ^ nb →
      SortHistLaneIdeal nb numTasks counts (i * 2 ^ nb + d)
        = sumRange (fun j => counts
            (((computeTaskRange i (taskQuot nb numTasks)
                (taskRem nb numTasks)).1 + j) * 2 ^ nb + d))
          ((computeTaskRange i (taskQuot nb numTasks) (taskRem nb numTasks)).2
            - (computeTaskRange i (taskQuot nb numTasks)
                (taskRem nb numTasks)).1) := by
    intro i _
    unfold SortHistLaneIdeal
    have hdiv : (i * 2 ^ nb + d) / 2 ^ nb = i := by
      rw [Nat.mul_comm, Nat.mul_add_div hnd, Nat.div_eq_of_lt hd, Nat.add_zero]
    have hmod : (i * 2 ^ nb + d) % 2 ^ nb = d := by
      rw [Nat.mul_comm i (2 ^ nb), Nat.mul_add_mod, Nat.mod_eq_of_lt hd]
    rw [hdiv, hmod]
  rw [sumRange_congr hcongr,
    range_prefix (taskQuot nb numTasks) (taskRem nb numTasks)
      (fun b' => counts (b' * 2 ^ nb + d)) (1024 / 2 ^ nb)]
  have hrem : taskRem nb numTasks < 1024 / 2 ^ nb := by
    unfold taskRem numColumns
    exact Nat.mod_lt _ hNCpos
  have hNCstart : (computeTaskRange (1024 / 2 ^ nb) (taskQuot nb numTasks)
      (taskRem nb numTasks)).1 = numTasks := by
    rw [computeTaskRange_fst, Nat.min_eq_right (Nat.le_of_lt hrem), Nat.mul_comm]
    unfold taskQuot taskRem numColumns
    exact Nat.div_add_mod numTasks (1024 / 2 ^ nb)
  rw [hNCstart]

theorem SortHistUnscaled_spec (nb numTasks : Nat) (hnb1 : 1 ≤ nb) (hnb7 : nb ≤ 7)
    (counts t0 : Nat → Nat) (i : Nat)
    (hi : i < 2 ^ nb * numTasks) :
    SortHistUnscaled nb numTasks counts t0 i
      = refSlotExc nb numTasks counts i % uMod := by
  have hnd : 0 < 2 ^ nb := by positivity
  have h128 : (2 : Nat) ^ nb ≤ 128 := by
    calc (2 : Nat) ^ nb ≤ 2 ^ 7 := Nat.pow_le_pow_right (by norm_num) hnb7
    _ = 128 := by norm_num
  have hNCpos : 0 < 1024 / 2 ^ nb := Nat.div_pos (by omega) hnd
  have hdvd1024 : (2 : Nat) ^ nb ∣ 1024 := by
    have h10 : (1024 : Nat) = 2 ^ 10 := by norm_num
    rw [h10]
    exact pow_dvd_pow 2 (by omega)
  have hNC1024 : 2 ^ nb * (1024 / 2 ^ nb) = 1024 := Nat.mul_div_cancel' hdvd1024
  have hb : i / 2 ^ nb < numTasks :=
    (Nat.div_lt_iff_lt_mul hnd).mpr (by rw [Nat.mul_comm]; exact hi)
  have hd : i % 2 ^ nb < 2 ^ nb := Nat.mod_lt i hnd
  have hdm : 1024 / 2 ^ nb * taskQuot nb numTasks + taskRem nb numTasks
      = numTasks := by
    unfold taskQuot taskRem numColumns
    exact Nat.div_add_mod numTasks (1024 / 2 ^ nb)
  have hrem : taskRem nb numTasks < 1024 / 2 ^ nb := by
    unfold taskRem numColumns
    exact Nat.mod_lt _ hNCpos
  obtain ⟨hstart, hend, hcol⟩ := colOf_spec (1024 / 2 ^ nb)
    (taskQuot nb numTasks) (taskRem nb numTasks) (i / 2 ^ nb) hrem
    (by rw [hdm]; exact hb)
  set quot := taskQuot nb numTasks with hquot
  set rem := taskRem nb numTasks with hremdef
  set col := colOf quot rem (i / 2 ^ nb) with hcoldef
  set start := (computeTaskRange col quot rem).1 with hstartdef
  have htid : col * 2 ^ nb + i % 2 ^ nb < 1024 := by
    have h1 : (col + 1) * 2 ^ nb = col * 2 ^ nb + 2 ^ nb := by ring
    have h3 : (col + 1) * 2 ^ nb ≤ 1024 / 2 ^ nb * 2 ^ nb :=
      Nat.mul_le_mul_right _ hcol
    have h4 : 1024 / 2 ^ nb * 2 ^ nb = 1024 := by
      rw [Nat.mul_comm]
      exact hNC1024
    omega
  have htidmod : (col * 2 ^ nb + i % 2 ^ nb) % 2 ^ nb = i % 2 ^ nb := by
    rw [Nat.mul_comm col (2 ^ nb), Nat.mul_add_mod, Nat.mod_eq_of_lt hd]
  have htiddiv : (col * 2 ^ nb + i % 2 ^ nb) / 2 ^ nb = col := by
    rw [Nat.mul_comm col (2 ^ nb), Nat.mul_add_div hnd, Nat.div_eq_of_lt hd,
      Nat.add_zero]
  have hlx : ∀ t, SortHistLaneCount nb numTasks counts t < uMod := fun t =>
    upsweepCount_lt counts _ _ _
  show downsweepExc counts
      (SortHistScan nb numTasks counts t0 (col * 2 ^ nb + i % 2 ^ nb))
      (2 ^ nb * start + i % 2 ^ nb) (2 ^ nb) (i / 2 ^ nb - start)
    = refSlotExc nb numTasks counts i % uMod
  have hms : SortHistScan nb numTasks counts t0 (col * 2 ^ nb + i % 2 ^ nb)
      < uMod :=
    StridedMultiScan_lt nb (SortHistLaneCount nb numTasks counts) t0 _
  rw [downsweepExc_spec counts _ _ _ hms]
  have hscan : SortHistScan nb numTasks counts t0 (col * 2 ^ nb + i % 2 ^ nb)
      = refStrided nb (SortHistLaneCount nb numTasks counts)
          (col * 2 ^ nb + i % 2 ^ nb) % uMod :=
    StridedMultiScan_spec nb hnb1 hnb7 _ t0 hlx _ htid
  rw [hscan, Nat.mod_add_mod]
  unfold refStrided
  rw [htidmod, htiddiv]
  have hAmod : (sumRange
        (digitTotal nb (SortHistLaneCount nb numTasks counts)) (i % 2 ^ nb)
      + sumRange (fun c => SortHistLaneCount nb numTasks counts
          (c * 2 ^ nb + i % 2 ^ nb)) col) % uMod
      = (sumRange
        (digitTotal nb (SortHistLaneIdeal nb numTasks counts)) (i % 2 ^ nb)
      + sumRange (fun c => SortHistLaneIdeal nb numTasks counts
          (c * 2 ^ nb + i % 2 ^ nb)) col) % uMod := by
    have h1 : sumRange
        (digitTotal nb (SortHistLaneCount nb numTasks counts)) (i % 2 ^ nb) % uMod
        = sumRange
        (digitTotal nb (SortHistLaneIdeal nb numTasks counts)) (i % 2 ^ nb) % uMod := by
      apply sumRange_mod_eq
      intro d' _
      apply sumRange_mod_eq
      intro q _
      rw [SortHistLaneCount_spec, Nat.mod_mod_of_dvd _ dvd_rfl]
    have h2 : sumRange (fun c => SortHistLaneCount nb numTasks counts
          (c * 2 ^ nb + i % 2 ^ nb)) col % uMod
        = sumRange (fun c => SortHistLaneIdeal nb numTasks counts
          (c * 2 ^ nb + i % 2 ^ nb)) col % uMod := by
      apply sumRange_mod_eq
      intro c _
      rw [SortHistLaneCount_spec, Nat.mod_mod_of_dvd _ dvd_rfl]
    rw [Nat.add_mod, h1, h2, ← Nat.add_mod]
  rw [Nat.ModEq.add_right _ hAmod]
  congr 1
  unfold refSlotExc
  rw [Nat.add_assoc]
  congr 1
  · apply sumRange_congr
    intro d' hd'
    exact digitTotal_lane nb numTasks hnb7 counts d' (by omega)
  · have hlane : ∀ c, SortHistLaneIdeal nb numTasks counts (c * 2 ^ nb + i % 2 ^ nb)
        = sumRange (fun j => counts
            (((computeTaskRange c quot rem).1 + j) * 2 ^ nb + i % 2 ^ nb))
          ((computeTaskRange c quot rem).2 - (computeTaskRange c quot rem).1) := by
      intro c
      unfold SortHistLaneIdeal
      have hdiv : (c * 2 ^ nb + i % 2 ^ nb) / 2 ^ nb = c := by
        rw [Nat.mul_comm c (2 ^ nb), Nat.mul_add_div hnd, Nat.div_eq_of_lt hd,
          Nat.add_zero]
      have hmod : (c * 2 ^ nb + i % 2 ^ nb) % 2 ^ nb = i % 2 ^ nb := by
        rw [Nat.mul_comm c (2 ^ nb), Nat.mul_add_mod, Nat.mod_eq_of_lt hd]
      rw [hdiv, hmod]
    rw [sumRange_congr (fun c _ => hlane c),
      range_prefix quot rem (fun b' => counts (b' * 2 ^ nb + i % 2 ^ nb)) col]
    have hP : sumRange (fun q => counts (2 ^ nb * start + i % 2 ^ nb + q * 2 ^ nb))
        (i / 2 ^ nb - start)
        = sumRange (fun q => counts ((start + q) * 2 ^ nb + i % 2 ^ nb))
          (i / 2 ^ nb - start) := by
      apply sumRange_congr
      intro q _
      congr 1
      ring
    rw [hP, ← sumRange_add (fun b' => counts (b' * 2 ^ nb + i % 2 ^ nb)) start
      (i / 2 ^ nb - start)]
    congr 1
    omega

theorem SortHistMem_spec (nb numTasks : Nat) (hnb1 : 1 ≤ nb) (hnb7 : nb ≤ 7)
    (counts t0 : Nat → Nat) (i : Nat) (hi : i < 2 ^ nb * numTasks) :
    SortHistMem nb numTasks counts t0 i
      = 4 * refSlotExc nb numTasks counts i % uMod := by
  unfold SortHistMem
  rw [if_pos hi, SortHistUnscaled_spec nb numTasks hnb1 hnb7 counts t0 i hi,
    Nat.mul_mod, Nat.mod_mod_of_dvd _ dvd_rfl, ← Nat.mul_mod]

theorem SortHistTotals_spec (nb numTasks : Nat) (hnb1 : 1 ≤ nb) (hnb7 : nb ≤ 7)
    (counts t0 prev : Nat → Nat) (d : Nat) (hd : d < 2 ^ nb) :
    SortHistTotalsOut nb numTasks counts t0 prev true d
      = sumRange (blockDigitTotal nb numTasks counts) d % uMod := by
  have hlx : ∀ t, SortHistLaneCount nb numTasks counts t < uMod := fun t =>
    upsweepCount_lt counts _ _ _
  unfold SortHistTotalsOut
  rw [if_pos ⟨rfl, hd⟩,
    StridedMultiScanTotals_spec nb hnb1 hnb7 _ t0 hlx d hd]
  have h1 : sumRange
      (digitTotal nb (SortHistLaneCount nb numTasks counts)) d % uMod
      = sumRange
      (digitTotal nb (SortHistLaneIdeal nb numTasks counts)) d % uMod := by
    apply sumRange_mod_eq
    intro d' _
    apply sumRange_mod_eq
    intro q _
    rw [SortHistLaneCount_spec, Nat.mod_mod_of_dvd _ dvd_rfl]
  rw [h1]
  congr 1
  apply sumRange_congr
  intro d' hd'
  exact digitTotal_lane nb numTasks hnb7 counts d' (by omega)

/-! ## Digit-major enumeration of the block-count slots -/

theorem dmIdx_zero (nb numTasks : Nat) : dmIdx nb numTasks 0 = 0 := by
  unfold dmIdx
  simp

theorem refSlotExc_zero (nb numTasks : Nat) (counts : Nat → Nat) :
    refSlotExc nb numTasks counts 0 = 0 := by
  unfold refSlotExc
  simp [sumRange]

theorem refSlotExc_dm_succ (nb numTasks : Nat) (counts : Nat → Nat) (k : Nat)
    (hk : k + 1 < 2 ^ nb * numTasks) :
    refSlotExc nb numTasks counts (dmIdx nb numTasks (k + 1))
      = refSlotExc nb numTasks counts (dmIdx nb numTasks k)
        + counts (dmIdx nb numTasks k) := by
  have hnd : 0 < 2 ^ nb := by positivity
  have hT : 0 < numTasks := by
    rcases Nat.eq_zero_or_pos numTasks with h0 | h1
    · rw [h0, Nat.mul_zero] at hk
      omega
    · exact h1
  have hdlt : k / numTasks < 2 ^ nb :=
    (Nat.div_lt_iff_lt_mul hT).mpr (by omega)
  have hsplit : numTasks * (k / numTasks) + k % numTasks = k :=
    Nat.div_add_mod k numTasks
  have hblt : k % numTasks < numTasks := Nat.mod_lt k hT
  have hkdiv : dmIdx nb numTasks k
      = k % numTasks * 2 ^ nb + k / numTasks := rfl
  have hmod0 : (k % numTasks * 2 ^ nb + k / numTasks) % 2 ^ nb
      = k / numTasks := by
    rw [Nat.mul_comm (k % numTasks) (2 ^ nb), Nat.mul_add_mod,
      Nat.mod_eq_of_lt hdlt]
  have hdiv0 : (k % numTasks * 2 ^ nb + k / numTasks) / 2 ^ nb
      = k % numTasks := by
    rw [Nat.mul_comm (k % numTasks) (2 ^ nb), Nat.mul_add_div hnd,
      Nat.div_eq_of_lt hdlt, Nat.add_zero]
  by_cases hcase : k % numTasks + 1 < numTasks
  · have hEq : k + 1 = numTasks * (k / numTasks) + (k % numTasks + 1) := by
      omega
    have hk1div : (k + 1) / numTasks = k / numTasks := by
      rw [hEq, Nat.mul_add_div hT, Nat.div_eq_of_lt hcase, Nat.add_zero]
    have hk1mod : (k + 1) % numTasks = k % numTasks + 1 := by
      rw [hEq, Nat.mul_add_mod, Nat.mod_eq_of_lt hcase]
    unfold dmIdx
    rw [hk1div, hk1mod]
    have hmod1 : ((k % numTasks + 1) * 2 ^ nb + k / numTasks) % 2 ^ nb
        = k / numTasks := by
      rw [Nat.mul_comm (k % numTasks + 1) (2 ^ nb), Nat.mul_add_mod,
        Nat.mod_eq_of_lt hdlt]
    have hdiv1 : ((k % numTasks + 1) * 2 ^ nb + k / numTasks) / 2 ^ nb
        = k % numTasks + 1 := by
      rw [Nat.mul_comm (k % numTasks + 1) (2 ^ nb), Nat.mul_add_div hnd,
        Nat.div_eq_of_lt hdlt, Nat.add_zero]
    unfold refSlotExc
    rw [hmod0, hdiv0, hmod1, hdiv1]
    simp only [sumRange]
    omega
  · have hbNT : k % numTasks + 1 = numTasks := by omega
    have hEq : k + 1 = numTasks * (k / numTasks + 1) := by
      have h2 : numTasks * (k / numTasks + 1)
          = numTasks * (k / numTasks) + numTasks := by ring
      omega
    have hk1div : (k + 1) / numTasks = k / numTasks + 1 := by
      rw [hEq, Nat.mul_div_cancel_left _ hT]
    have hk1mod : (k + 1) % numTasks = 0 := by
      rw [hEq, Nat.mul_mod_right]
    have hd1 : k / numTasks + 1 < 2 ^ nb := by
      have h5 : numTasks * (k / numTasks + 1) < numTasks * 2 ^ nb := by
        rw [← hEq, Nat.mul_comm numTasks (2 ^ nb)]
        exact hk
      exact Nat.lt_of_mul_lt_mul_left h5
    unfold dmIdx
    rw [hk1div, hk1mod]
    have hmod1 : (0 * 2 ^ nb + (k / numTasks + 1)) % 2 ^ nb
        = k / numTasks + 1 := by
      rw [Nat.zero_mul, Nat.zero_add, Nat.mod_eq_of_lt hd1]
    have hdiv1 : (0 * 2 ^ nb + (k / numTasks + 1)) / 2 ^ nb = 0 := by
      rw [Nat.zero_mul, Nat.zero_add, Nat.div_eq_of_lt hd1]
    unfold refSlotExc
    rw [hmod0, hdiv0, hmod1, hdiv1]
    have hBDT : blockDigitTotal nb numTasks counts (k / numTasks)
        = sumRange (fun b' => counts (b' * 2 ^ nb + k / numTasks)) (k % numTasks)
          + counts (k % numTasks * 2 ^ nb + k / numTasks) := by
      have h6 : blockDigitTotal nb numTasks counts (k / numTasks)
          = sumRange (fun b' => counts (b' * 2 ^ nb + k / numTasks))
              (k % numTasks + 1) := by
        unfold blockDigitTotal
        congr 1
        omega
      rw [h6]
      rfl
    simp only [sumRange]
    rw [hBDT]
    omega

theorem refDM_formula (nb numTasks : Nat) (counts : Nat → Nat) (k : Nat) :
    k < 2 ^ nb * numTasks →
    refSlotExc nb numTasks counts (dmIdx nb numTasks k)
      = sumRange (fun q => counts (dmIdx nb numTasks q)) k := by
  induction k with
  | zero =>
    intro _
    rw [dmIdx_zero, refSlotExc_zero]
    rfl
  | succ k ih =>
    intro hk
    rw [refSlotExc_dm_succ nb numTasks counts k hk, ih (by omega)]
    rfl

theorem dmTotal_eq (nb numTasks : Nat) (counts : Nat → Nat) :
    sumRange (fun q => counts (dmIdx nb numTasks q)) (2 ^ nb * numTasks)
      = sumRange counts (2 ^ nb * numTasks) := by
  rw [← sumRange_flatten (fun q => counts (dmIdx nb numTasks q)) numTasks (2 ^ nb)]
  have hR : sumRange counts (2 ^ nb * numTasks)
      = sumRange (fun b =>
          sumRange (fun j => counts (b * 2 ^ nb + j)) (2 ^ nb)) numTasks := by
    rw [sumRange_flatten counts (2 ^ nb) numTasks, Nat.mul_comm]
  rw [hR]
  have hL : sumRange (fun w =>
        sumRange (fun j => counts (dmIdx nb numTasks (w * numTasks + j)))
          numTasks) (2 ^ nb)
      = sumRange (fun w =>
        sumRange (fun j => counts (j * 2 ^ nb + w)) numTasks) (2 ^ nb) := by
    apply sumRange_congr
    intro d _
    apply sumRange_congr
    intro b hb
    congr 1
    have hT : 0 < numTasks := by omega
    unfold dmIdx
    have hmod : (d * numTasks + b) % numTasks = b := by
      rw [Nat.mul_comm d numTasks, Nat.mul_add_mod, Nat.mod_eq_of_lt hb]
    have hdiv : (d * numTasks + b) / numTasks = d := by
      rw [Nat.mul_comm d numTasks, Nat.mul_add_div hT, Nat.div_eq_of_lt hb,
        Nat.add_zero]
    rw [hmod, hdiv]
  rw [hL, sumRange_swap (fun d b => counts (b * 2 ^ nb + d)) (2 ^ nb) numTasks]

theorem refSlotExc_le_total (nb numTasks : Nat) (counts : Nat → Nat) (i : Nat)
    (hi : i < 2 ^ nb * numTasks) :
    refSlotExc nb numTasks counts i ≤ sumRange counts (2 ^ nb * numTasks) := by
  have hnd : 0 < 2 ^ nb := by positivity
  have hT : 0 < numTasks := by
    rcases Nat.eq_zero_or_pos numTasks with h0 | h1
    · rw [h0, Nat.mul_zero] at hi
      omega
    · exact h1
  have hb : i / 2 ^ nb < numTasks :=
    (Nat.div_lt_iff_lt_mul hnd).mpr (by rw [Nat.mul_comm]; exact hi)
  have hd : i % 2 ^ nb < 2 ^ nb := Nat.mod_lt i hnd
  have hk : i % 2 ^ nb * numTasks + i / 2 ^ nb < 2 ^ nb * numTasks := by
    have h1 : (i % 2 ^ nb + 1) * numTasks = i % 2 ^ nb * numTasks + numTasks := by
      ring
    have h2 : (i % 2 ^ nb + 1) * numTasks ≤ 2 ^ nb * numTasks :=
      Nat.mul_le_mul_right numTasks hd
    omega
  have hdm : dmIdx nb numTasks (i % 2 ^ nb * numTasks + i / 2 ^ nb) = i := by
    unfold dmIdx
    have hmod : (i % 2 ^ nb * numTasks + i / 2 ^ nb) % numTasks = i / 2 ^ nb := by
      rw [Nat.mul_comm (i % 2 ^ nb) numTasks, Nat.mul_add_mod,
        Nat.mod_eq_of_lt hb]
    have hdiv : (i % 2 ^ nb * numTasks + i / 2 ^ nb) / numTasks = i % 2 ^ nb := by
      rw [Nat.mul_comm (i % 2 ^ nb) numTasks, Nat.mul_add_div hT,
        Nat.div_eq_of_lt hb, Nat.add_zero]
    rw [hmod, hdiv, Nat.mul_comm (i / 2 ^ nb) (2 ^ nb)]
    exact Nat.div_add_mod i (2 ^ nb)
  calc refSlotExc nb numTasks counts i
      = refSlotExc nb numTasks counts
          (dmIdx nb numTasks (i % 2 ^ nb * numTasks + i / 2 ^ nb)) := by
        rw [hdm]
  _ = sumRange (fun q => counts (dmIdx nb numTasks q))
        (i % 2 ^ nb * numTasks + i / 2 ^ nb) :=
      refDM_formula nb numTasks counts _ hk
  _ ≤ sumRange (fun q => counts (dmIdx nb numTasks q)) (2 ^ nb * numTasks) :=
      sumRange_mono _ (Nat.le_of_lt hk)
  _ = sumRange counts (2 ^ nb * numTasks) := dmTotal_eq nb numTasks counts

theorem sumRange_const (c n : Nat) : sumRange (fun _ => c) n = n * c := by
  induction n with
  | zero => simp [sumRange]
  | succ n ih =>
    show sumRange (fun _ => c) n + c = _
    rw [ih, Nat.succ_mul]

theorem dmIdx_lt (nb numTasks k : Nat) (hk : k < 2 ^ nb * numTasks) :
    dmIdx nb numTasks k < 2 ^ nb * numTasks := by
  have hnd : 0 < 2 ^ nb := by positivity
  have hT : 0 < numTasks := by
    rcases Nat.eq_zero_or_pos numTasks with h0 | h1
    · rw [h0, Nat.mul_zero] at hk
      omega
    · exact h1
  have hb : k % numTasks < numTasks := Nat.mod_lt k hT
  have hd : k / numTasks < 2 ^ nb :=
    (Nat.div_lt_iff_lt_mul hT).mpr (by omega)
  unfold dmIdx
  have h1 : (k % numTasks + 1) * 2 ^ nb = k % numTasks * 2 ^ nb + 2 ^ nb := by
    ring
  have h2 : (k % numTasks + 1) * 2 ^ nb ≤ numTasks * 2 ^ nb :=
    Nat.mul_le_mul_right _ hb
  have h3 : numTasks * 2 ^ nb = 2 ^ nb * numTasks := Nat.mul_comm _ _
  omega

theorem hostRefScan32_spec (x : Nat → Nat) (n : Nat) :
    hostRefScan32 x n
      = sumRange (fun k => x (k % 32 * 32 + k / 32)) n % uMod := by
  induction n with
  | zero => rfl
  | succ n ih =>
    show (hostRefScan32 x n + x (n % 32 * 32 + n / 32)) % uMod = _
    rw [ih, Nat.mod_add_mod]
    rfl

/-! ## Claim theorems -/

/-- C1, counterexample: the claim quantifies over every array of
non-negative per-block-per-digit counts, but the offsets are `uint`
values: with `NumBits = 1`, `numTasks = 2` and counts
`2^31, 2^31` for digit 0 and `1, 0` for digit 1, the unscaled offset of
the slot following `(digit 0, block 1)` in digit-major order wraps to
`0` instead of equalling the previous offset `2^31` plus the previous
count `2^31`. -/
theorem C1_counterexample :
    SortHistUnscaled 1 2
      (fun i => if i = 0 then 2147483648 else if i = 2 then 2147483648
        else if i = 1 then 1 else 0) (fun _ => 0) (dmIdx 1 2 2)
    ≠ SortHistUnscaled 1 2
      (fun i => if i = 0 then 2147483648 else if i = 2 then 2147483648
        else if i = 1 then 1 else 0) (fun _ => 0) (dmIdx 1 2 1)
      + (fun i => if i = 0 then 2147483648 else if i = 2 then 2147483648
        else if i = 1 then 1 else 0) (dmIdx 1 2 1) := by
  decide

/-- C1 (amended): provided the total of all counts is below `2^32` (so
that no unsigned addition wraps), the unscaled exclusive offsets computed
by `SortHist` partition `[0, sum counts)` contiguously in digit-major
then block-major order: the offset of block 0 of digit 0 is `0`, and each
subsequent slot's offset equals the previous slot's offset plus the count
stored there. -/
theorem C1_partition_amended (nb numTasks : Nat) (counts t0 : Nat → Nat)
    (hnb1 : 1 ≤ nb) (hnb7 : nb ≤ 7) (hT : 1 ≤ numTasks)
    (htot : sumRange counts (2 ^ nb * numTasks) < uMod) :
    SortHistUnscaled nb numTasks counts t0 (dmIdx nb numTasks 0) = 0 ∧
    ∀ k, k + 1 < 2 ^ nb * numTasks →
      SortHistUnscaled nb numTasks counts t0 (dmIdx nb numTasks (k + 1))
        = SortHistUnscaled nb numTasks counts t0 (dmIdx nb numTasks k)
          + counts (dmIdx nb numTasks k) := by
  have hnd : 0 < 2 ^ nb := by positivity
  have key : ∀ k, k < 2 ^ nb * numTasks →
      SortHistUnscaled nb numTasks counts t0 (dmIdx nb numTasks k)
        = refSlotExc nb numTasks counts (dmIdx nb numTasks k) := by
    intro k hk
    have hdmlt := dmIdx_lt nb numTasks k hk
    rw [SortHistUnscaled_spec nb numTasks hnb1 hnb7 counts t0 _ hdmlt]
    exact Nat.mod_eq_of_lt
      (Nat.lt_of_le_of_lt (refSlotExc_le_total nb numTasks counts _ hdmlt) htot)
  constructor
  · rw [key 0 (Nat.mul_pos hnd hT), dmIdx_zero, refSlotExc_zero]
  · intro k hk
    rw [key (k + 1) hk, key k (by omega),
      refSlotExc_dm_succ nb numTasks counts k hk]

/-- C1 amended, witness: the amended theorem applied at `NumBits = 1`,
`numTasks = 1`, counts `1, 2`. -/
theorem C1_partition_amended_witness :
    (1 : Nat) ≤ 1 ∧ sumRange (fun i => i + 1) (2 ^ 1 * 1) < uMod ∧
    (SortHistUnscaled 1 1 (fun i => i + 1) (fun _ => 0) (dmIdx 1 1 0) = 0 ∧
    ∀ k, k + 1 < 2 ^ 1 * 1 →
      SortHistUnscaled 1 1 (fun i => i + 1) (fun _ => 0) (dmIdx 1 1 (k + 1))
        = SortHistUnscaled 1 1 (fun i => i + 1) (fun _ => 0) (dmIdx 1 1 k)
          + (fun i => i + 1) (dmIdx 1 1 k)) :=
  ⟨by decide, by decide,
    C1_partition_amended 1 1 (fun i => i + 1) (fun _ => 0)
      (by decide) (by decide) (by decide) (by decide)⟩

/-- C2, counterexample: the written-back value is a `uint`, so it equals
`4 ×` the unscaled exclusive prefix sum only modulo `2^32`: with
`NumBits = 1`, `numTasks = 1` and a digit-0 count of `2^30`, the slot of
digit 1 receives `(4 * 2^30) mod 2^32 = 0`, not `4 * 2^30`. -/
theorem C2_counterexample :
    SortHistMem 1 1 (fun i => if i = 0 then 1073741824 else 0) (fun _ => 0) 1
      ≠ 4 * refSlotExc 1 1 (fun i => if i = 0 then 1073741824 else 0) 1 := by
  decide

/-- C2 (amended): provided `4 ×` the total of all counts is below `2^32`,
every value `SortHist` writes back equals exactly `4 ×` the unscaled
exclusive prefix sum at that slot (digit-major then block-major order),
and the running offset at each slot is the unscaled exclusive prefix sum
(it is advanced by the original counts, not the scaled values). -/
theorem C2_scaling_amended (nb numTasks : Nat) (counts t0 : Nat → Nat)
    (hnb1 : 1 ≤ nb) (hnb7 : nb ≤ 7)
    (htot : 4 * sumRange counts (2 ^ nb * numTasks) < uMod) :
    ∀ i, i < 2 ^ nb * numTasks →
      SortHistMem nb numTasks counts t0 i
        = 4 * refSlotExc nb numTasks counts i ∧
      SortHistUnscaled nb numTasks counts t0 i
        = refSlotExc nb numTasks counts i := by
  intro i hi
  have hle := refSlotExc_le_total nb numTasks counts i hi
  constructor
  · rw [SortHistMem_spec nb numTasks hnb1 hnb7 counts t0 i hi]
    exact Nat.mod_eq_of_lt (by omega)
  · rw [SortHistUnscaled_spec nb numTasks hnb1 hnb7 counts t0 i hi]
    exact Nat.mod_eq_of_lt (by omega)

/-- C2 amended, witness: the amended theorem applied at `NumBits = 1`,
`numTasks = 1`, counts `0, 1`, slot 1. -/
theorem C2_scaling_amended_witness :
    4 * sumRange (fun i => i) (2 ^ 1 * 1) < uMod ∧ 1 < 2 ^ 1 * 1 ∧
    (SortHistMem 1 1 (fun i => i) (fun _ => 0) 1
      = 4 * refSlotExc 1 1 (fun i => i) 1 ∧
    SortHistUnscaled 1 1 (fun i => i) (fun _ => 0) 1
      = refSlotExc 1 1 (fun i => i) 1) :=
  ⟨by decide, by decide,
    C2_scaling_amended 1 1 (fun i => i) (fun _ => 0)
      (by decide) (by decide) (by decide) 1 (by decide)⟩

/-- C3, counterexample: `SortHist` reads `totals_shared` only after
`StridedMultiScan` has overwritten it with the exclusive scan of the
digit totals, so the totals output is the scan of the grand totals, not
the grand totals: with `NumBits = 1`, `numTasks = 1` and counts `5, 7`,
digit 0's output is `0`, not the grand total `5`. -/
theorem C3_counterexample :
    SortHistTotalsOut 1 1 (fun i => if i = 0 then 5 else if i = 1 then 7 else 0)
      (fun _ => 0) (fun _ => 42) true 0
    ≠ blockDigitTotal 1 1
      (fun i => if i = 0 then 5 else if i = 1 then 7 else 0) 0 := by
  decide

/-- C3 (amended): whenever `SortHist` is called with a non-null
`totalsScan_global` pointer, the value written for digit `d` is the
exclusive prefix sum (over lower digits, modulo `2^32`) of the grand
totals — the sum of `counts[b, d']` over all blocks `b` and digits
`d' < d` — not the grand total of digit `d` itself. -/
theorem C3_totals_amended (nb numTasks : Nat) (counts t0 prev : Nat → Nat)
    (nonNull : Bool) (hnb1 : 1 ≤ nb) (hnb7 : nb ≤ 7) (hnn : nonNull = true)
    (d : Nat) (hd : d < 2 ^ nb) :
    SortHistTotalsOut nb numTasks counts t0 prev nonNull d
      = sumRange (blockDigitTotal nb numTasks counts) d % uMod := by
  subst hnn
  exact SortHistTotals_spec nb numTasks hnb1 hnb7 counts t0 prev d hd

/-- C3 amended, witness: the amended theorem applied at `NumBits = 1`,
`numTasks = 1`, counts `5, 7`, digit 1. -/
theorem C3_totals_amended_witness :
    (true = true) ∧ (1 : Nat) < 2 ^ 1 ∧
    SortHistTotalsOut 1 1 (fun i => if i = 0 then 5 else if i = 1 then 7 else 0)
      (fun _ => 0) (fun _ => 42) true 1
      = sumRange (blockDigitTotal 1 1
          (fun i => if i = 0 then 5 else if i = 1 then 7 else 0)) 1 % uMod :=
  ⟨rfl, by decide,
    C3_totals_amended 1 1 (fun i => if i = 0 then 5 else if i = 1 then 7 else 0)
      (fun _ => 0) (fun _ => 42) true (by decide) (by decide) rfl 1 (by decide)⟩

/-- C4, counterexample: for `NumBits = 1`, `numTasks = 4`, counts
`[3,1,4,1]` (digit 0) and `[1,5,9,2]` (digit 1), the claim expects the
×4-scaled offset of block 0 of digit 1 to be `0`, but the scan is
digit-major over both digits, so that slot receives
`4 × (3+1+4+1) = 36`: digit 1's offsets continue after digit 0's grand
total rather than restarting at 0. -/
theorem C4_counterexample :
    SortHistMem 1 4 (fun i =>
      if i = 0 then 3 else if i = 2 then 1 else if i = 4 then 4
      else if i = 6 then 1 else if i = 1 then 1 else if i = 3 then 5
      else if i = 5 then 9 else 2) (fun _ => 0) 1 ≠ 0 := by
  decide

/-- C4 (amended): for `NumBits = 1`, `numTasks = 4`, block counts
`[3,1,4,1]` for digit 0 and `[1,5,9,2]` for digit 1, `SortHist` writes
back the ×4-scaled offsets `[0,12,16,32]` for digit 0 and
`[36,40,60,96]` for digit 1 (the array is laid out block-major, so the
written array is `[0,36,12,40,16,60,32,96]`). -/
theorem C4_concrete_amended :
    (List.range 8).map (SortHistMem 1 4 (fun i =>
      if i = 0 then 3 else if i = 2 then 1 else if i = 4 then 4
      else if i = 6 then 1 else if i = 1 then 1 else if i = 3 then 5
      else if i = 5 then 9 else 2) (fun _ => 0))
    = [0, 36, 12, 40, 16, 60, 32, 96] := by
  decide

/-- C5 (confirmed): for `NumBits = 5` (32 digits, regime B) with 1024
threads, the value `StridedMultiScan` returns for every thread equals the
host-side reference sequential exclusive scan (`hostRefScan32`, modelled
from the spec) over the same input in strided digit-major order, for
every input of `uint` counts — the result does not depend on the internal
algorithm regime that computed it. -/
theorem C5_regime_equivalence (x t0 : Nat → Nat) (hx : ∀ t, x t < uMod)
    (t : Nat) (ht : t < 1024) :
    StridedMultiScan 5 x t0 t
      = hostRefScan32 x (t % 32 * 32 + t / 32) := by
  rw [StridedMultiScan_spec 5 (by norm_num) (by norm_num) x t0 hx t ht,
    hostRefScan32_spec]
  congr 1
  unfold refStrided digitTotal
  have h32 : (2 : Nat) ^ 5 = 32 := by norm_num
  have h1024 : 1024 / (2 : Nat) ^ 5 = 32 := by norm_num
  rw [h1024, h32, sumRange_add (fun k => x (k % 32 * 32 + k / 32))
    (t % 32 * 32) (t / 32), ← sumRange_flatten
      (fun k => x (k % 32 * 32 + k / 32)) 32 (t % 32)]
  congr 1
  · apply sumRange_congr
    intro d' hd'
    apply sumRange_congr
    intro q hq
    congr 1
    have hm : (d' * 32 + q) % 32 = q := by omega
    have hdv : (d' * 32 + q) / 32 = d' := by omega
    rw [hm, hdv]
  · apply sumRange_congr
    intro q hq
    congr 1
    have hm : (t % 32 * 32 + q) % 32 = q := by omega
    have hdv : (t % 32 * 32 + q) / 32 = t % 32 := by omega
    rw [hm, hdv]

/-- C5, witness: the theorem applied to the input `t ↦ t % 5` at thread
100. -/
theorem C5_regime_equivalence_witness :
    (100 : Nat) < 1024 ∧
    StridedMultiScan 5 (fun t => t % 5) (fun _ => 0) 100
      = hostRefScan32 (fun t => t % 5) (100 % 32 * 32 + 100 / 32) :=
  ⟨by decide, C5_regime_equivalence (fun t => t % 5) (fun _ => 0)
    (fun t => by
      show t % 5 < uMod
      unfold uMod
      omega) 100 (by decide)⟩

/-- C6 (confirmed, `ComputeTaskRange` modelled from the spec): for every
`numTasks` and every positive number of columns, with
`quot = numTasks / columns` and `rem = numTasks % columns`, the task-range
split assigns column 0 the start `0`, each next column starts where the
previous ends (contiguity), each column's range length is `quot` plus one
extra for the first `rem` columns, the lengths sum to `numTasks`, and no
two lengths differ by more than 1. -/
theorem C6_balanced_split (numTasks columns : Nat) (hcols : 0 < columns) :
    (computeTaskRange 0 (numTasks / columns) (numTasks % columns)).1 = 0
    ∧ (∀ col, (computeTaskRange (col + 1) (numTasks / columns)
          (numTasks % columns)).1
        = (computeTaskRange col (numTasks / columns) (numTasks % columns)).2)
    ∧ (∀ col, (computeTaskRange col (numTasks / columns)
            (numTasks % columns)).2
          - (computeTaskRange col (numTasks / columns) (numTasks % columns)).1
        = numTasks / columns
          + if col < numTasks % columns then 1 else 0)
    ∧ sumRange (fun col =>
        (computeTaskRange col (numTasks / columns) (numTasks % columns)).2
          - (computeTaskRange col (numTasks / columns)
              (numTasks % columns)).1) columns = numTasks
    ∧ ∀ c1 c2 : Nat,
        (computeTaskRange c1 (numTasks / columns) (numTasks % columns)).2
          - (computeTaskRange c1 (numTasks / columns) (numTasks % columns)).1
        ≤ ((computeTaskRange c2 (numTasks / columns) (numTasks % columns)).2
          - (computeTaskRange c2 (numTasks / columns)
              (numTasks % columns)).1) + 1 := by
  have hlen : ∀ col, (computeTaskRange col (numTasks / columns)
        (numTasks % columns)).2
      - (computeTaskRange col (numTasks / columns) (numTasks % columns)).1
      = numTasks / columns + if col < numTasks % columns then 1 else 0 := by
    intro col
    rw [computeTaskRange_fst, computeTaskRange_snd]
    by_cases h : col < numTasks % columns
    · simp only [if_pos h]
      generalize numTasks / columns = Q
      generalize Q * col = A
      generalize min col (numTasks % columns) = M
      omega
    · simp only [if_neg h]
      generalize numTasks / columns = Q
      generalize Q * col = A
      generalize min col (numTasks % columns) = M
      omega
  refine ⟨rangeStart_zero _ _, fun col => rangeStart_succ col _ _, hlen, ?_, ?_⟩
  · rw [sumRange_congr (fun col _ => hlen col),
      sumRange_add_distrib (fun _ => numTasks / columns)
        (fun col => if col < numTasks % columns then 1 else 0) columns,
      sumRange_const, sumRange_indicator]
    have hrem : numTasks % columns < columns := Nat.mod_lt _ hcols
    have hmin : min (numTasks % columns) columns = numTasks % columns :=
      Nat.min_eq_left (Nat.le_of_lt hrem)
    rw [hmin]
    exact Nat.div_add_mod numTasks columns
  · intro c1 c2
    rw [hlen c1, hlen c2]
    by_cases h1 : c1 < numTasks % columns <;>
      by_cases h2 : c2 < numTasks % columns <;>
        simp [h1, h2] <;> omega

/-- C6, witness: the theorem applied at `numTasks = 10`, `columns = 4`. -/
theorem C6_balanced_split_witness :
    (0 : Nat) < 4 ∧
    ((computeTaskRange 0 (10 / 4) (10 % 4)).1 = 0
    ∧ (∀ col, (computeTaskRange (col + 1) (10 / 4) (10 % 4)).1
        = (computeTaskRange col (10 / 4) (10 % 4)).2)
    ∧ (∀ col, (computeTaskRange col (10 / 4) (10 % 4)).2
          - (computeTaskRange col (10 / 4) (10 % 4)).1
        = 10 / 4 + if col < 10 % 4 then 1 else 0)
    ∧ sumRange (fun col => (computeTaskRange col (10 / 4) (10 % 4)).2
          - (computeTaskRange col (10 / 4) (10 % 4)).1) 4 = 10
    ∧ ∀ c1 c2 : Nat, (computeTaskRange c1 (10 / 4) (10 % 4)).2
          - (computeTaskRange c1 (10 / 4) (10 % 4)).1
        ≤ ((computeTaskRange c2 (10 / 4) (10 % 4)).2
          - (computeTaskRange c2 (10 / 4) (10 % 4)).1) + 1) :=
  ⟨by decide, C6_balanced_split 10 4 (by decide)⟩

/-- C7 (confirmed): for every choice of the tunable parameters, the
composed policy's `Spine` and `Single` kernel configurations both have
log-scheduling-granularity `SPINE_LOG_LOADS_PER_TILE +
SPINE_LOG_LOAD_VEC_SIZE + SPINE_LOG_THREADS` (so the granularity is
`loads_per_tile × load_vec_size × threads`), and both have their
work-stealing flag forced to `false` regardless of the requested
`WORK_STEALING` flag. -/
theorem C7_spine_single_policy (p : PolicyTunables) :
    (spineCfg p).logScheduleGranularity
      = p.spineLogLoadsPerTile + p.spineLogLoadVecSize + p.spineLogThreads
    ∧ (singleCfg p).logScheduleGranularity
      = p.spineLogLoadsPerTile + p.spineLogLoadVecSize + p.spineLogThreads
    ∧ 2 ^ (spineCfg p).logScheduleGranularity
      = 2 ^ p.spineLogLoadsPerTile * 2 ^ p.spineLogLoadVecSize
        * 2 ^ p.spineLogThreads
    ∧ 2 ^ (singleCfg p).logScheduleGranularity
      = 2 ^ p.spineLogLoadsPerTile * 2 ^ p.spineLogLoadVecSize
        * 2 ^ p.spineLogThreads
    ∧ (spineCfg p).workStealing = false
    ∧ (singleCfg p).workStealing = false := by
  refine ⟨rfl, rfl, ?_, ?_, rfl, rfl⟩ <;>
    · show 2 ^ (p.spineLogLoadsPerTile + p.spineLogLoadVecSize
        + p.spineLogThreads) = _
      rw [pow_add, pow_add]

/-- C8, counterexample: the three entry-point accessors of the composed
policy return kernel entry points unconditionally — they never consult
the validity flag — so a policy whose `VALID` flag is false (here: a
validity predicate rejecting every kernel configuration) still yields
launchable entry points from all three accessors. -/
theorem C8_counterexample :
    policyVALID (fun _ => false)
      ⟨0, 0, 0, false, false, false, false, 0, 0, 0, 0, 0, 0, 0, 0⟩ = false
    ∧ (UpsweepKernel
        ⟨0, 0, 0, false, false, false, false, 0, 0, 0, 0, 0, 0, 0, 0⟩).isSome
        = true
    ∧ (SpineKernel
        ⟨0, 0, 0, false, false, false, false, 0, 0, 0, 0, 0, 0, 0, 0⟩).isSome
        = true
    ∧ (SingleKernel
        ⟨0, 0, 0, false, false, false, false, 0, 0, 0, 0, 0, 0, 0, 0⟩).isSome
        = true := by
  exact ⟨rfl, rfl, rfl, rfl⟩

/-- C8 (amended): the composed policy does not refuse an invalid policy
at composition time: even when its validity flag is false, all three
entry-point accessors still produce launchable kernel entry points.
Validity is only reported through the `VALID` flag; refusing to launch is
the caller's responsibility. -/
theorem C8_accessors_amended (p : PolicyTunables) (v : KernelPolicyCfg → Bool)
    (hv : policyVALID v p = false) :
    (UpsweepKernel p).isSome = true ∧ (SpineKernel p).isSome = true
      ∧ (SingleKernel p).isSome = true :=
  ⟨rfl, rfl, rfl⟩

/-- C8 amended, witness: the amended theorem applied to a policy whose
validity predicate rejects everything. -/
theorem C8_accessors_amended_witness :
    policyVALID (fun _ => false)
      ⟨1, 0, 0, true, false, false, false, 8, 7, 1, 1, 9, 7, 1, 1⟩ = false
    ∧ ((UpsweepKernel
        ⟨1, 0, 0, true, false, false, false, 8, 7, 1, 1, 9, 7, 1, 1⟩).isSome
        = true
      ∧ (SpineKernel
        ⟨1, 0, 0, true, false, false, false, 8, 7, 1, 1, 9, 7, 1, 1⟩).isSome
        = true
      ∧ (SingleKernel
        ⟨1, 0, 0, true, false, false, false, 8, 7, 1, 1, 9, 7, 1, 1⟩).isSome
        = true) :=
  ⟨rfl, C8_accessors_amended
    ⟨1, 0, 0, true, false, false, false, 8, 7, 1, 1, 9, 7, 1, 1⟩
    (fun _ => false) rfl⟩

/-- C9, counterexample: `Policy::VALID` is `Upsweep::VALID & Spine::VALID`
only — the fused-single configuration's flag is not consulted.  With a
validity predicate that accepts a configuration iff it skips alignment
checking or has occupancy ≠ 1, the upsweep (occupancy 8) and spine
(no alignment check) configurations are valid but the single
configuration (alignment check, occupancy 1) is not, so the conjunction
over all three sub-policies is false while `VALID` is true. -/
theorem C9_counterexample :
    policyVALID (fun c => !c.checkAlignment || (c.maxCtaOccupancy != 1))
      ⟨0, 0, 0, false, false, false, false, 8, 0, 0, 0, 0, 0, 0, 0⟩
    ≠ ((fun c => !c.checkAlignment || (c.maxCtaOccupancy != 1))
        (upsweepCfg ⟨0, 0, 0, false, false, false, false, 8, 0, 0, 0, 0, 0, 0, 0⟩)
      && (fun c => !c.checkAlignment || (c.maxCtaOccupancy != 1))
        (spineCfg ⟨0, 0, 0, false, false, false, false, 8, 0, 0, 0, 0, 0, 0, 0⟩)
      && (fun c => !c.checkAlignment || (c.maxCtaOccupancy != 1))
        (singleCfg ⟨0, 0, 0, false, false, false, false, 8, 0, 0, 0, 0, 0, 0, 0⟩)) := by
  decide

/-- C9 (amended): the composed policy's `VALID` flag equals the logical
AND of the validity flags of the upsweep and spine kernel configurations
only; the fused-single configuration's flag is not part of the
conjunction. -/
theorem C9_valid_amended (p : PolicyTunables) (v : KernelPolicyCfg → Bool) :
    policyVALID v p = (v (upsweepCfg p) && v (spineCfg p)) := rfl

/-- C10 (confirmed): all counts and offsets in `SortHist` are 32-bit
unsigned integers and every addition and the ×4 multiplication wrap
modulo `2^32` with no overflow check: for every input, the value written
back at each slot equals `(4 × unscaled exclusive prefix sum) mod 2^32`,
and the exact (natural-number) equation is guaranteed when
`4 × sum counts < 2^32`. -/
theorem C10_wraparound (nb numTasks : Nat) (counts t0 : Nat → Nat)
    (hnb1 : 1 ≤ nb) (hnb7 : nb ≤ 7) :
    ∀ i, i < 2 ^ nb * numTasks →
      SortHistMem nb numTasks counts t0 i
        = 4 * refSlotExc nb numTasks counts i % uMod
      ∧ (4 * sumRange counts (2 ^ nb * numTasks) < uMod →
          SortHistMem nb numTasks counts t0 i
            = 4 * refSlotExc nb numTasks counts i) := by
  intro i hi
  refine ⟨SortHistMem_spec nb numTasks hnb1 hnb7 counts t0 i hi, fun htot => ?_⟩
  rw [SortHistMem_spec nb numTasks hnb1 hnb7 counts t0 i hi]
  have hle := refSlotExc_le_total nb numTasks counts i hi
  exact Nat.mod_eq_of_lt (by omega)

/-- C10, witness: the theorem applied at `NumBits = 1`, `numTasks = 1`,
counts `0, 3`, slot 1. -/
theorem C10_wraparound_witness :
    (1 : Nat) ≤ 1 ∧ 1 < 2 ^ 1 * 1 ∧
    (SortHistMem 1 1 (fun i => 3 * i) (fun _ => 0) 1
        = 4 * refSlotExc 1 1 (fun i => 3 * i) 1 % uMod
      ∧ (4 * sumRange (fun i => 3 * i) (2 ^ 1 * 1) < uMod →
          SortHistMem 1 1 (fun i => 3 * i) (fun _ => 0) 1
            = 4 * refSlotExc 1 1 (fun i => 3 * i) 1)) :=
  ⟨by decide, by decide,
    C10_wraparound 1 1 (fun i => 3 * i) (fun _ => 0)
      (by decide) (by decide) 1 (by decide)⟩
